import Mathlib

/-!
Verification of the defmt host-side decoder (`src/decoder/src/decoder.rs`)
against its natural-language specification.

The Rust source is shallowly embedded: byte streams are `List Nat` (each
element a byte value), strings are `List Char`, machine integers are `Nat`
or `Int` with explicit `% 2 ^ w` where wrap-around matters.  Fallible
operations return `Except DecodeError`.  The external format-string parser
(`defmt_parser::parse`), an out-of-scope collaborator, is a parameter
`parse : List Char → Option (List Parameter)` of every function that
consumes it, exactly as the spec treats it (a pure function).  Unbounded
recursion through the symbol table is modelled with a fuel parameter; fuel
exhaustion is the distinguished outcome `DecodeError.outOfFuel`, and Rust
panics (assertion failures, arithmetic overflow, `unreachable!`) are the
distinguished outcome `DecodeError.panicked`.
-/

set_option maxHeartbeats 4000000

namespace Defmt

/-- The severity levels of `defmt_parser::Level`. -/
inductive Level
  | trace
  | debug
  | info
  | warn
  | error
deriving DecidableEq

/-- The `Tag` enum of the decoder. -/
inductive Tag
  | prim
  | derived
  | write
  | str
  | timestamp
  | trace
  | debug
  | info
  | warn
  | error
deriving DecidableEq

/-- `Tag::to_level`. -/
def Tag.to_level : Tag → Option Level
  | .trace => some .trace
  | .debug => some .debug
  | .info => some .info
  | .warn => some .warn
  | .error => some .error
  | _ => none

/-- `StringEntry`: a tag together with an interned format string. -/
structure StringEntry where
  tag : Tag
  string : List Char
deriving DecidableEq

/-- `TableEntry`: a string entry plus the raw symbol (opaque to the decoder). -/
structure TableEntry where
  string : StringEntry
  raw_symbol : List Char
deriving DecidableEq

/-- The interner `Table`: an index→entry mapping plus an optional timestamp
entry.  The `BTreeMap` is modelled as an association list with the map's
lookup discipline. -/
structure Table where
  timestamp : Option TableEntry
  entries : List (Nat × TableEntry)
deriving DecidableEq

/-- `Table::_get`: entry lookup returning the level (if the tag bears one)
and the format string. -/
def Table.get_raw (t : Table) (index : Nat) : Option (Option Level × List Char) :=
  (t.entries.lookup index).map fun e => (e.string.tag.to_level, e.string.string)

/-- `Table::get_with_level`. -/
def Table.get_with_level (t : Table) (index : Nat) : Option (Level × List Char) :=
  match t.get_raw index with
  | some (some lvl, fmt) => some (lvl, fmt)
  | _ => none

/-- `Table::get_without_level`. -/
def Table.get_without_level (t : Table) (index : Nat) : Option (List Char) :=
  match t.get_raw index with
  | some (none, fmt) => some fmt
  | _ => none

/-- The two wire error kinds of `DecodeError`, plus two model-level outcomes:
`panicked` stands for a Rust panic (failed assertion, arithmetic overflow,
`unreachable!`) and `outOfFuel` for exhaustion of the recursion budget that
the shallow embedding uses in place of unbounded recursion. -/
inductive DecodeError
  | unexpectedEof
  | malformed
  | panicked
  | outOfFuel
deriving DecidableEq

/-- `byteorder`-style exact read of one byte; a short read is
`UnexpectedEof`. -/
def read_u8 : List Nat → Except DecodeError (Nat × List Nat)
  | [] => .error .unexpectedEof
  | b :: rest => .ok (b, rest)

/-- Little-endian value of a byte list (first byte least significant). -/
def le_val : List Nat → Nat
  | [] => 0
  | b :: rest => b + 256 * le_val rest

/-- `byteorder`-style exact little-endian read of `n` bytes (`read_u16`,
`read_u24`, `read_u32`, `read_u64`, `read_u128`); a short read is
`UnexpectedEof`. -/
def read_le (n : Nat) (bytes : List Nat) : Except DecodeError (Nat × List Nat) :=
  if bytes.length < n then .error .unexpectedEof
  else .ok (le_val (bytes.take n), bytes.drop n)

/-- Two's-complement reinterpretation of a `bits`-wide unsigned value,
used for the signed reads `read_i8` … `read_i128`. -/
def as_signed (bits : Nat) (v : Nat) : Int :=
  if v < 2 ^ (bits - 1) then (v : Int) else (v : Int) - 2 ^ bits

/-- Modelled from the spec: unsigned LEB128 (`leb128::read::unsigned`, an
external crate consumed by `read_leb128`): 7 payload bits per byte, high bit
is the continuation bit; truncation is `UnexpectedEof` and a value that
would overflow 64 bits is `Malformed` (the crate rejects a byte other than
`0x00`/`0x01` once 63 bits have been consumed). -/
def leb128_read : List Nat → Nat → Nat → Except DecodeError (Nat × List Nat)
  | [], _, _ => .error .unexpectedEof
  | b :: rest, shift, acc =>
    if shift == 63 && b != 0 && b != 1 then .error .malformed
    else
      let acc := acc ||| ((b % 128) <<< shift)
      if b < 128 then .ok (acc, rest)
      else leb128_read rest (shift + 7) acc

/-- `read_leb128`. -/
def read_leb128 (bytes : List Nat) : Except DecodeError (Nat × List Nat) :=
  leb128_read bytes 0 0

/-- `zigzag_decode`: `(unsigned >> 1) as i64 ^ -((unsigned & 1) as i64)`,
computed on the 64-bit two's-complement bit patterns. -/
def zigzag_decode (unsigned : Nat) : Int :=
  as_signed 64 ((unsigned >>> 1) ^^^ ((2 ^ 64 - (unsigned &&& 1)) % 2 ^ 64))

/-- UTF-8 decoding of a byte list (`String::from_utf8` /
`core::str::from_utf8`): returns the character list when the bytes are
valid UTF-8 (rejecting overlong forms, surrogates and values above
`0x10FFFF`), `none` otherwise. -/
def utf8_decode : List Nat → Option (List Char)
  | [] => some []
  | b :: rest =>
    if b < 0x80 then
      (utf8_decode rest).map fun s => Char.ofNat b :: s
    else if b < 0xC2 then none
    else if b < 0xE0 then
      match rest with
      | c1 :: rest1 =>
        if 0x80 ≤ c1 ∧ c1 < 0xC0 then
          (utf8_decode rest1).map fun s =>
            Char.ofNat (((b - 0xC0) <<< 6) ||| (c1 - 0x80)) :: s
        else none
      | _ => none
    else if b < 0xF0 then
      match rest with
      | c1 :: c2 :: rest2 =>
        if (if b = 0xE0 then 0xA0 ≤ c1 ∧ c1 < 0xC0
            else if b = 0xED then 0x80 ≤ c1 ∧ c1 < 0xA0
            else 0x80 ≤ c1 ∧ c1 < 0xC0) ∧ (0x80 ≤ c2 ∧ c2 < 0xC0) then
          (utf8_decode rest2).map fun s =>
            Char.ofNat (((b - 0xE0) <<< 12) ||| ((c1 - 0x80) <<< 6) ||| (c2 - 0x80)) :: s
        else none
      | _ => none
    else if b < 0xF5 then
      match rest with
      | c1 :: c2 :: c3 :: rest3 =>
        if (if b = 0xF0 then 0x90 ≤ c1 ∧ c1 < 0xC0
            else if b = 0xF4 then 0x80 ≤ c1 ∧ c1 < 0x90
            else 0x80 ≤ c1 ∧ c1 < 0xC0) ∧ (0x80 ≤ c2 ∧ c2 < 0xC0) ∧
            (0x80 ≤ c3 ∧ c3 < 0xC0) then
          (utf8_decode rest3).map fun s =>
            Char.ofNat (((b - 0xF0) <<< 18) ||| ((c1 - 0x80) <<< 12) |||
              ((c2 - 0x80) <<< 6) ||| (c3 - 0x80)) :: s
        else none
      | _ => none
    else none

/-- The display hints of `defmt_parser::DisplayHint` used by the decoder.
The parser's `ForwardsCompatible` mode drops unknown hints, so `Option
DisplayHint` with `none` covers them. -/
inductive DisplayHint
  | binary
  | hexadecimal (is_uppercase : Bool)
  | ascii
  | microseconds
  | debug
deriving DecidableEq

/-- The parameter types of `defmt_parser::Type` (named `Ty` because `Type`
is reserved in Lean).  `BitField(start..end)` is `bitField start stop`. -/
inductive Ty
  | bool
  | u8
  | u16
  | u24
  | u32
  | u64
  | u128
  | usize
  | i8
  | i16
  | i32
  | i64
  | i128
  | isize
  | f32
  | f64
  | bitField (start stop : Nat)
  | str
  | istr
  | u8Slice
  | u8Array (len : Nat)
  | format
  | formatSlice
  | formatArray (len : Nat)
  | char
  | debug
  | display
deriving DecidableEq

/-- `defmt_parser::Parameter`. -/
structure Parameter where
  index : Nat
  ty : Ty
  hint : Option DisplayHint
deriving DecidableEq

/-- `defmt_parser::Fragment`: what `parse` produces. -/
inductive Fragment
  | literal (s : List Char)
  | parameter (p : Parameter)
deriving DecidableEq

/-- The filter of `merge_bitfields`:
`matches!((param.index, &param.ty), (i, Type::BitField(_)) if i == index)`. -/
def bitfield_with_index (index : Nat) (p : Parameter) : Bool :=
  p.index == index &&
    match p.ty with
    | .bitField _ _ => true
    | _ => false

/-- Modelled from the spec: `defmt_parser::get_max_bitfield_range` (external
format-parser crate, not under `src/`): over the `BitField` parameters of
the list it computes the minimum start and the maximum end; `none` when
there is no bitfield. -/
def get_max_bitfield_range (params : List Parameter) : Option (Nat × Nat) :=
  let ranges := params.filterMap fun p =>
    match p.ty with
    | .bitField s e => some (s, e)
    | _ => none
  match ranges with
  | [] => none
  | r :: rs => some (rs.foldl (fun acc q => (min acc.1 q.1, max acc.2 q.2)) r)

/-- One pass of the `for index in 0..=max_index` loop of `merge_bitfields`:
when bitfields with this index exist, remove them from the parameter list
and append the merged bitfield to the merged accumulator. -/
def merge_step (acc : List Parameter × List Parameter) (index : Nat) :
    List Parameter × List Parameter :=
  match get_max_bitfield_range (acc.1.filter (bitfield_with_index index)) with
  | none => acc
  | some (smallest, largest) =>
    (acc.1.filter fun p => !bitfield_with_index index p,
     acc.2 ++ [⟨index, .bitField smallest largest, none⟩])

/-- `merge_bitfields`: per positional index, coalesce all bitfield
parameters with that index into one spanning bitfield; merged entries are
appended after the sweep. -/
def merge_bitfields (params : List Parameter) : List Parameter :=
  if params.isEmpty then params
  else
    let max_index := (params.map (·.index)).foldl max 0
    let acc := (List.range (max_index + 1)).foldl merge_step (params, [])
    acc.1 ++ acc.2

/-- `Vec::dedup_by(|a, b| a.index == b.index)`: drop an element whose index
equals its retained predecessor's, keeping the first of each run. -/
def dedup_by_index : List Parameter → List Parameter
  | [] => []
  | [p] => [p]
  | p :: q :: rest =>
    if q.index == p.index then dedup_by_index (p :: rest)
    else p :: dedup_by_index (q :: rest)
termination_by l => l.length

/-- `Decoder::prepare_params`: merge bitfields, stable-sort by index,
dedup by index. -/
def prepare_params (params : List Parameter) : List Parameter :=
  dedup_by_index
    ((merge_bitfields params).mergeSort fun a b => a.index ≤ b.index)

/-- Whether a type is a bitfield (the pattern of `merge_bitfields`'s
filter). -/
def Ty.is_bitfield : Ty → Bool
  | .bitField _ _ => true
  | _ => false

/-- The merged parameter `merge_bitfields` emits for one index: the
spanning bitfield over the bitfield occurrences at that index, when any
exist. -/
def merged_at (P : List Parameter) (i : Nat) : Option Parameter :=
  match get_max_bitfield_range (P.filter (bitfield_with_index i)) with
  | none => none
  | some (s, l) => some ⟨i, .bitField s l, none⟩

/-- The maximum positional index of a parameter list (0 when empty), as
`merge_bitfields` computes it. -/
def max_param_index (P : List Parameter) : Nat := (P.map (·.index)).foldl max 0

/-- The `Kind` classifier inside `check_version`. -/
inductive VersionKind
  | semver
  | git
deriving DecidableEq

/-- `version.parse::<u64>().is_ok()`: an optional leading plus sign, at
least one digit, value within 64 bits. -/
def parses_as_u64 (s : List Char) : Bool :=
  let t := match s with
    | '+' :: t => t
    | _ => s
  !t.isEmpty && t.all Char.isDigit &&
    t.foldl (fun acc c => acc * 10 + (c.toNat - 48)) 0 < 2 ^ 64

/-- `Kind::of`: a string containing a dot or parsing as a plain unsigned
integer is `Semver`; anything else is treated as a `Git` commit hash. -/
def version_kind_of (version : List Char) : VersionKind :=
  if version.contains '.' || parses_as_u64 version then .semver else .git

/-- The suggestion text appended to the mismatch diagnostic, per
(firmware, host) classification pair.  The spec calls the exact wording a
UX concern and not a contract; the Cargo.toml snippet of the Git/Git arm is
elided here. -/
def version_suggestion (defmt_version version : List Char) : List Char :=
  match version_kind_of version, version_kind_of defmt_version with
  | .git, .git =>
    "pin _all_ `defmt` related dependencies to revision ".toList ++
      defmt_version ++ "; modify Cargo.toml files as shown below".toList
  | .git, .semver =>
    ("migrate your firmware to a crates.io version of defmt (check " ++
      "https://https://defmt.ferrous-systems.com) OR\n`cargo install` a " ++
      "_git_ version of `probe-run`: `cargo install --git " ++
      "https://github.com/knurling-rs/probe-run --branch main`").toList
  | .semver, .git =>
    "`cargo install` a non-git version of `probe-run`: `cargo install probe-run`".toList
  | .semver, .semver =>
    ("`cargo install` a different non-git version of `probe-run` " ++
      "that supports defmt ").toList ++ version

/-- The full diagnostic string produced on a version mismatch. -/
def version_mismatch_message (defmt_version version : List Char) : List Char :=
  "defmt version mismatch: firmware is using ".toList ++ version ++
    ", `probe-run` supports ".toList ++ defmt_version ++
    "\nsuggestion: ".toList ++ version_suggestion defmt_version version

/-- `check_version`, with the compiled-in constant `DEFMT_VERSION` (defined
outside `src/`) passed as the `defmt_version` argument. -/
def check_version (defmt_version version : List Char) : Except (List Char) Unit :=
  if version ≠ defmt_version then
    .error (version_mismatch_message defmt_version version)
  else .ok ()

mutual

/-- The decoded argument tree (`Arg`).  A `Bool` argument is a shared cell
(`Arc<Bool>`) written after the fact by the packed-bool flush: the cell is
modelled as an identifier `boolRef id`, and the cell store lives in the
decoder state (`cell_vals`).  Floats carry their raw little-endian bit
pattern (`f32::from_bits` / `f64::from_bits`). -/
inductive Arg
  | boolRef (id : Nat)
  | f32 (bits : Nat)
  | f64 (bits : Nat)
  | uxx (v : Nat)
  | ixx (v : Int)
  | str (s : List Char)
  | istr (s : List Char)
  | format (format : List Char) (args : List Arg)
  | formatSlice (elements : List FormatSliceElement)
  | slice (bytes : List Nat)
  | char (c : Char)
  | preformatted (s : List Char)

/-- `FormatSliceElement`: per-element format string (the variant, for
enums) and arguments. -/
inductive FormatSliceElement
  | mk (format : List Char) (args : List Arg)

end

/-- Format string of a slice element. -/
def FormatSliceElement.format : FormatSliceElement → List Char
  | .mk f _ => f

/-- Arguments of a slice element. -/
def FormatSliceElement.args : FormatSliceElement → List Arg
  | .mk _ a => a

/-- `FormatList`: the Build/Use state machine for format-slice
deduplication. -/
inductive FormatList
  | build (formats : List (List Char))
  | use (formats : List (List Char)) (cursor : Nat)
deriving DecidableEq

/-- The mutable state of `Decoder`: the byte cursor, the format-list state,
the below-enum flag and the pending packed-bool cells.  `next_cell` and
`cell_vals` model the allocation of `Arc<Bool>` cells and the values
written into them. -/
structure DecSt where
  bytes : List Nat
  format_list : Option FormatList
  below_enum : Bool
  bools_tbd : List Nat
  next_cell : Nat
  cell_vals : List (Nat × Bool)
deriving DecidableEq

/-- `MAX_NUM_BOOL_FLAGS`. -/
def MAX_NUM_BOOL_FLAGS : Nat := 8

/-- The loop of `read_and_unpack_bools`: walk the pending cells in
insertion order, decrementing `flag_index` from the pending count, and give
each cell the bit `1 << flag_index` of the flush byte. -/
def unpack_bools (bool_flags : Nat) : List Nat → Nat → List (Nat × Bool)
  | [], _ => []
  | cell :: cells, flag_index =>
    (cell, (bool_flags &&& (1 <<< (flag_index - 1))) != 0) ::
      unpack_bools bool_flags cells (flag_index - 1)

/-- `Decoder::read_and_unpack_bools`: read one byte and distribute its bits
to the pending bool cells, then clear the pending list. -/
def read_and_unpack_bools (st : DecSt) : Except DecodeError DecSt :=
  match read_u8 st.bytes with
  | .error e => .error e
  | .ok (bool_flags, rest) =>
    .ok { st with
      bytes := rest
      bools_tbd := []
      cell_vals := st.cell_vals ++
        unpack_bools bool_flags st.bools_tbd st.bools_tbd.length }

/-- The fall-through of `Decoder::get_format`: read a LEB128 index from the
stream, resolve it as a non-level entry, and append it to the Build list
when one is active and the decoder is not below an enum. -/
def get_format_from_stream (tbl : Table) (st : DecSt) :
    Except DecodeError (List Char × DecSt) :=
  match read_leb128 st.bytes with
  | .error e => .error e
  | .ok (index, rest) =>
    match tbl.get_without_level index with
    | none => .error .malformed
    | some format =>
      let st := { st with bytes := rest }
      match st.format_list with
      | some (.build formats) =>
        if !st.below_enum then
          .ok (format, { st with format_list := some (.build (formats ++ [format])) })
        else .ok (format, st)
      | _ => .ok (format, st)

/-- `Decoder::get_format`: a Use-mode list that still has strings yields
the next one and advances its cursor; otherwise fall through to the
stream. -/
def get_format (tbl : Table) (st : DecSt) : Except DecodeError (List Char × DecSt) :=
  match st.format_list with
  | some (.use formats cursor) =>
    match formats[cursor]? with
    | some format =>
      .ok (format, { st with format_list := some (.use formats (cursor + 1)) })
    | none => get_format_from_stream tbl st
  | _ => get_format_from_stream tbl st

/-- Rust's `str::split` on a separator character: every occurrence splits,
empty pieces are kept, and the result always has (number of separators + 1)
pieces. -/
def split_char (sep : Char) : List Char → List (List Char)
  | [] => [[]]
  | c :: rest =>
    match split_char sep rest with
    | h :: t => if c = sep then [] :: h :: t else (c :: h) :: t
    | [] => [[c]]

/-- `Decoder::get_variant`: count the pipe characters, read the
discriminant at the smallest unsigned width that can hold the count, and
select the discriminant-th pipe-separated slice of the format string.  The
entry assertion `assert!(format.contains('|'))` is the `panicked`
outcome. -/
def get_variant (format : List Char) (st : DecSt) :
    Except DecodeError (List Char × DecSt) :=
  if !format.contains '|' then .error .panicked
  else
    let num_variants := format.count '|'
    let disc :=
      if num_variants < 2 ^ 8 then read_u8 st.bytes
      else if num_variants < 2 ^ 16 then read_le 2 st.bytes
      else if num_variants < 2 ^ 32 then read_le 4 st.bytes
      else if num_variants < 2 ^ 64 then read_le 8 st.bytes
      else .error .malformed
    match disc with
    | .error e => .error e
    | .ok (discriminant, rest) =>
      match (split_char '|' format)[discriminant]? with
      | some variant => .ok (variant, { st with bytes := rest })
      | none => .error .malformed

/-- Exact read of `n` single bytes (the `for _ in 0..len { read_u8 }`
loops of the `Str`, `U8Slice` and `U8Array` arms). -/
def read_bytes_exact (n : Nat) (bytes : List Nat) :
    Except DecodeError (List Nat × List Nat) :=
  if bytes.length < n then .error .unexpectedEof
  else .ok (bytes.take n, bytes.drop n)

/-- The `Debug`/`Display` arm of `decode_format`: scan for the `0xFF`
sentinel (its absence is `UnexpectedEof`), UTF-8 decode the bytes before it
(failure is `Malformed`), and consume the sentinel too. -/
def decode_preformatted (st : DecSt) : Except DecodeError (List Char × DecSt) :=
  match st.bytes.findIdx? (fun b => b == 255) with
  | none => .error .unexpectedEof
  | some pos =>
    match utf8_decode (st.bytes.take pos) with
    | none => .error .malformed
    | some s => .ok (s, { st with bytes := st.bytes.drop (pos + 1) })

mutual

/-- `Decoder::decode_format`: parse the format string (the external parser
is the `parse` argument; a parse failure is `Malformed`), keep the
parameter fragments, prepare them (merge bitfields, sort, dedup) and decode
them in order.  Recursion through the symbol table is bounded by `fuel`. -/
def decode_format (parse : List Char → Option (List Fragment)) (tbl : Table) :
    Nat → List Char → DecSt → Except DecodeError (List Arg × DecSt)
  | 0, _, _ => .error .outOfFuel
  | fuel + 1, format, st =>
    match parse format with
    | none => .error .malformed
    | some frags =>
      let params := prepare_params (frags.filterMap fun frag =>
        match frag with
        | .parameter p => some p
        | .literal _ => none)
      decode_params parse tbl fuel params [] st
termination_by fuel format st => (fuel, 0, 0)

/-- The `for param in &params` loop of `decode_format`, one wire read per
prepared parameter, accumulating the argument list. -/
def decode_params (parse : List Char → Option (List Fragment)) (tbl : Table) :
    Nat → List Parameter → List Arg → DecSt → Except DecodeError (List Arg × DecSt)
  | _, [], args, st => .ok (args, st)
  | fuel, param :: params, args, st =>
    match param.ty with
    | .u8 =>
      match read_u8 st.bytes with
      | .error e => .error e
      | .ok (data, rest) =>
        decode_params parse tbl fuel params (args ++ [.uxx data]) { st with bytes := rest }
    | .bool =>
      let id := st.next_cell
      let st := { st with next_cell := id + 1, bools_tbd := st.bools_tbd ++ [id] }
      let args := args ++ [Arg.boolRef id]
      if st.bools_tbd.length == MAX_NUM_BOOL_FLAGS then
        match read_and_unpack_bools st with
        | .error e => .error e
        | .ok st => decode_params parse tbl fuel params args st
      else decode_params parse tbl fuel params args st
    | .formatSlice =>
      match read_leb128 st.bytes with
      | .error e => .error e
      | .ok (num_elements, rest) =>
        match decode_format_slice parse tbl fuel num_elements { st with bytes := rest } with
        | .error e => .error e
        | .ok (elements, st) =>
          decode_params parse tbl fuel params (args ++ [.formatSlice elements]) st
    | .format =>
      match get_format tbl st with
      | .error e => .error e
      | .ok (format, st) =>
        if format.contains '|' then
          match get_variant format st with
          | .error e => .error e
          | .ok (variant, st) =>
            let saved := st.below_enum
            match decode_format parse tbl fuel variant { st with below_enum := true } with
            | .error e => .error e
            | .ok (inner_args, st) =>
              decode_params parse tbl fuel params (args ++ [.format variant inner_args])
                { st with below_enum := saved }
        else
          match decode_format parse tbl fuel format st with
          | .error e => .error e
          | .ok (inner_args, st) =>
            decode_params parse tbl fuel params (args ++ [.format format inner_args]) st
    | .i16 =>
      match read_le 2 st.bytes with
      | .error e => .error e
      | .ok (data, rest) =>
        decode_params parse tbl fuel params (args ++ [.ixx (as_signed 16 data)]) { st with bytes := rest }
    | .i32 =>
      match read_le 4 st.bytes with
      | .error e => .error e
      | .ok (data, rest) =>
        decode_params parse tbl fuel params (args ++ [.ixx (as_signed 32 data)]) { st with bytes := rest }
    | .i64 =>
      match read_le 8 st.bytes with
      | .error e => .error e
      | .ok (data, rest) =>
        decode_params parse tbl fuel params (args ++ [.ixx (as_signed 64 data)]) { st with bytes := rest }
    | .i128 =>
      match read_le 16 st.bytes with
      | .error e => .error e
      | .ok (data, rest) =>
        decode_params parse tbl fuel params (args ++ [.ixx (as_signed 128 data)]) { st with bytes := rest }
    | .i8 =>
      match read_u8 st.bytes with
      | .error e => .error e
      | .ok (data, rest) =>
        decode_params parse tbl fuel params (args ++ [.ixx (as_signed 8 data)]) { st with bytes := rest }
    | .isize =>
      match read_leb128 st.bytes with
      | .error e => .error e
      | .ok (unsigned, rest) =>
        decode_params parse tbl fuel params (args ++ [.ixx (zigzag_decode unsigned)]) { st with bytes := rest }
    | .u16 =>
      match read_le 2 st.bytes with
      | .error e => .error e
      | .ok (data, rest) =>
        decode_params parse tbl fuel params (args ++ [.uxx data]) { st with bytes := rest }
    | .u24 =>
      match read_u8 st.bytes with
      | .error e => .error e
      | .ok (data_low, rest1) =>
        match read_le 2 rest1 with
        | .error e => .error e
        | .ok (data_high, rest) =>
          decode_params parse tbl fuel params (args ++ [.uxx (data_low ||| (data_high <<< 8))]) { st with bytes := rest }
    | .u32 =>
      match read_le 4 st.bytes with
      | .error e => .error e
      | .ok (data, rest) =>
        decode_params parse tbl fuel params (args ++ [.uxx data]) { st with bytes := rest }
    | .u64 =>
      match read_le 8 st.bytes with
      | .error e => .error e
      | .ok (data, rest) =>
        decode_params parse tbl fuel params (args ++ [.uxx data]) { st with bytes := rest }
    | .u128 =>
      match read_le 16 st.bytes with
      | .error e => .error e
      | .ok (data, rest) =>
        decode_params parse tbl fuel params (args ++ [.uxx data]) { st with bytes := rest }
    | .usize =>
      match read_leb128 st.bytes with
      | .error e => .error e
      | .ok (unsigned, rest) =>
        decode_params parse tbl fuel params (args ++ [.uxx unsigned]) { st with bytes := rest }
    | .f32 =>
      match read_le 4 st.bytes with
      | .error e => .error e
      | .ok (data, rest) =>
        decode_params parse tbl fuel params (args ++ [.f32 data]) { st with bytes := rest }
    | .f64 =>
      match read_le 8 st.bytes with
      | .error e => .error e
      | .ok (data, rest) =>
        decode_params parse tbl fuel params (args ++ [.f64 data]) { st with bytes := rest }
    | .bitField start stop =>
      if stop == 0 then .error .panicked
      else
        let lowest_byte := start / 8
        let highest_byte := (stop - 1) / 8
        if highest_byte < lowest_byte then .error .panicked
        else
          let size_after_truncation := highest_byte - lowest_byte + 1
          let rd :=
            if size_after_truncation ≤ 4 then read_le size_after_truncation st.bytes
            else if size_after_truncation ≤ 8 then read_le 8 st.bytes
            else if size_after_truncation ≤ 16 then read_le 16 st.bytes
            else .error .panicked
          match rd with
          | .error e => .error e
          | .ok (data, rest) =>
            if 128 ≤ lowest_byte * 8 then .error .panicked
            else
              decode_params parse tbl fuel params
                (args ++ [.uxx ((data <<< (lowest_byte * 8)) % 2 ^ 128)]) { st with bytes := rest }
    | .str =>
      match read_leb128 st.bytes with
      | .error e => .error e
      | .ok (str_len, rest1) =>
        match read_bytes_exact str_len rest1 with
        | .error e => .error e
        | .ok (arg_str_bytes, rest) =>
          match utf8_decode arg_str_bytes with
          | none => .error .malformed
          | some s =>
            decode_params parse tbl fuel params (args ++ [.str s]) { st with bytes := rest }
    | .istr =>
      match read_leb128 st.bytes with
      | .error e => .error e
      | .ok (str_index, rest) =>
        match tbl.get_without_level str_index with
        | none => .error .malformed
        | some s =>
          decode_params parse tbl fuel params (args ++ [.istr s]) { st with bytes := rest }
    | .u8Slice =>
      match read_leb128 st.bytes with
      | .error e => .error e
      | .ok (num_elements, rest1) =>
        match read_bytes_exact num_elements rest1 with
        | .error e => .error e
        | .ok (arg_slice, rest) =>
          decode_params parse tbl fuel params (args ++ [.slice arg_slice]) { st with bytes := rest }
    | .u8Array len =>
      match read_bytes_exact len st.bytes with
      | .error e => .error e
      | .ok (arg_slice, rest) =>
        decode_params parse tbl fuel params (args ++ [.slice arg_slice]) { st with bytes := rest }
    | .formatArray len =>
      match decode_format_slice parse tbl fuel len st with
      | .error e => .error e
      | .ok (elements, st) =>
        decode_params parse tbl fuel params (args ++ [.formatSlice elements]) st
    | .char =>
      match read_le 4 st.bytes with
      | .error e => .error e
      | .ok (data, rest) =>
        if data < 0xD800 || (0xE000 ≤ data && data < 0x110000) then
          decode_params parse tbl fuel params (args ++ [.char (Char.ofNat data)]) { st with bytes := rest }
        else .error .malformed
    | .debug =>
      match decode_preformatted st with
      | .error e => .error e
      | .ok (s, st) =>
        decode_params parse tbl fuel params (args ++ [.preformatted s]) st
    | .display =>
      match decode_preformatted st with
      | .error e => .error e
      | .ok (s, st) =>
        decode_params parse tbl fuel params (args ++ [.preformatted s]) st
termination_by fuel params args st => (fuel, 2, params.length)

/-- `Decoder::decode_format_slice`: an empty slice consumes nothing; a
non-empty one resolves the shared format once, notes whether it is an enum
(setting `below_enum` around the elements) and decodes the elements. -/
def decode_format_slice (parse : List Char → Option (List Fragment)) (tbl : Table) :
    Nat → Nat → DecSt → Except DecodeError (List FormatSliceElement × DecSt)
  | fuel, num_elements, st =>
    if num_elements == 0 then .ok ([], st)
    else
      match get_format tbl st with
      | .error e => .error e
      | .ok (format, st) =>
        let is_enum := format.contains '|'
        let saved_below_enum := st.below_enum
        let st := if is_enum then { st with below_enum := true } else st
        match decode_elems parse tbl fuel format is_enum num_elements true [] 0 [] st with
        | .error e => .error e
        | .ok (elements, st) =>
          .ok (elements, if is_enum then { st with below_enum := saved_below_enum } else st)
termination_by fuel n st => (fuel, 1, 2 * n + 1)

/-- The element loop of `decode_format_slice`.  `formats` and `cursor` are
the local variables of the Rust loop: `formats` receives the Build list
made by the first element when no format list was active, and `cursor`
receives the snapshot `formats.len()` taken at the first element when an
ambient Build list is active.  Each iteration re-inspects the ambient
`format_list`, exactly as the Rust code does. -/
def decode_elems (parse : List Char → Option (List Fragment)) (tbl : Table) :
    Nat → List Char → Bool → Nat → Bool → List (List Char) → Nat →
      List FormatSliceElement → DecSt → Except DecodeError (List FormatSliceElement × DecSt)
  | _, _, _, 0, _, _, _, acc, st => .ok (acc, st)
  | fuel, shared, is_enum, n + 1, is_first, formats, cursor, acc, st =>
    match if is_enum then get_variant shared st else .ok (shared, st) with
    | .error e => .error e
    | .ok (format, st) =>
      match st.format_list with
      | some (.use fs c) =>
        match decode_format parse tbl fuel format st with
        | .error e => .error e
        | .ok (args, st) =>
          decode_elems parse tbl fuel shared is_enum n false formats cursor
            (acc ++ [⟨format, args⟩]) st
      | some (.build fs) =>
        if is_first then
          match decode_format parse tbl fuel format st with
          | .error e => .error e
          | .ok (args, st) =>
            decode_elems parse tbl fuel shared is_enum n false formats fs.length
              (acc ++ [⟨format, args⟩]) st
        else
          match decode_format parse tbl fuel format { st with format_list := some (.use fs cursor) } with
          | .error e => .error e
          | .ok (args, st1) =>
            decode_elems parse tbl fuel shared is_enum n false formats cursor
              (acc ++ [⟨format, args⟩]) { st1 with format_list := some (.build fs) }
      | none =>
        if is_first then
          match decode_format parse tbl fuel format { st with format_list := some (.build formats) } with
          | .error e => .error e
          | .ok (args, st1) =>
            let formats := match st1.format_list with
              | some (.build fs2) => fs2
              | _ => []
            decode_elems parse tbl fuel shared is_enum n false formats cursor
              (acc ++ [⟨format, args⟩]) { st1 with format_list := none }
        else
          match decode_format parse tbl fuel format { st with format_list := some (.use formats 0) } with
          | .error e => .error e
          | .ok (args, st1) =>
            decode_elems parse tbl fuel shared is_enum n false formats cursor
              (acc ++ [⟨format, args⟩]) { st1 with format_list := none }
termination_by fuel shared ie n isf fs cur acc st => (fuel, 1, 2 * n)

end

/-- A decoded log frame. -/
structure Frame where
  level : Level
  index : Nat
  timestamp_format : Option (List Char)
  timestamp_args : List Arg
  format : List Char
  args : List Arg

/-- The body of `decode`, returning the final decoder state alongside the
frame: read the LEB128 log index, decode the timestamp arguments when the
table has a timestamp entry, resolve the index as a level-bearing entry,
decode the root format's arguments, and flush the pending packed bools if
any are outstanding. -/
def decode_core (parse : List Char → Option (List Fragment)) (tbl : Table)
    (fuel : Nat) (bytes : List Nat) : Except DecodeError (Frame × DecSt) :=
  match read_leb128 bytes with
  | .error e => .error e
  | .ok (index, rest) =>
    let st : DecSt :=
      { bytes := rest, format_list := none, below_enum := false
        bools_tbd := [], next_cell := 0, cell_vals := [] }
    let tsRes : Except DecodeError (Option (List Char) × List Arg × DecSt) :=
      match tbl.timestamp with
      | none => .ok (none, [], st)
      | some entry =>
        match decode_format parse tbl fuel entry.string.string st with
        | .error e => .error e
        | .ok (targs, st) => .ok (some entry.string.string, targs, st)
    match tsRes with
    | .error e => .error e
    | .ok (ts_format, ts_args, st) =>
      match tbl.get_with_level index with
      | none => .error .malformed
      | some (level, format) =>
        match decode_format parse tbl fuel format st with
        | .error e => .error e
        | .ok (args, st) =>
          let flushRes : Except DecodeError DecSt :=
            if st.bools_tbd.isEmpty then .ok st else read_and_unpack_bools st
          match flushRes with
          | .error e => .error e
          | .ok st =>
            .ok ({ level := level, index := index, timestamp_format := ts_format
                   timestamp_args := ts_args, format := format, args := args }, st)

/-- `decode`: the public entry point, returning the frame and the consumed
byte count `original length - remaining length`. -/
def decode (parse : List Char → Option (List Fragment)) (tbl : Table)
    (fuel : Nat) (bytes : List Nat) : Except DecodeError (Frame × Nat) :=
  match decode_core parse tbl fuel bytes with
  | .error e => .error e
  | .ok (frame, st) => .ok (frame, bytes.length - st.bytes.length)

/-- Digits of `n` in the given base (lowercase hex letters), as Rust's
integer formatting produces them. -/
def nat_digits (base n : Nat) : List Char := Nat.toDigits base n

/-- `format_u128`: render an unsigned value per display hint (`{:#b}`,
`{:#x}`, `{:#X}`, microseconds, or plain decimal). -/
def format_u128 (x : Nat) (hint : Option DisplayHint) : List Char :=
  match hint with
  | some .binary => '0' :: 'b' :: nat_digits 2 x
  | some (.hexadecimal false) => '0' :: 'x' :: nat_digits 16 x
  | some (.hexadecimal true) => '0' :: 'x' :: (nat_digits 16 x).map Char.toUpper
  | some .microseconds =>
    let seconds := x / 1000000
    let micros := x % 1000000
    let ds := nat_digits 10 micros
    nat_digits 10 seconds ++ ['.'] ++ List.replicate (6 - ds.length) '0' ++ ds
  | _ => nat_digits 10 x

/-- `format_i128`: signed rendering; the binary and hexadecimal hints show
the 128-bit two's-complement bit pattern, as Rust's `{:#b}`/`{:#x}` do for
signed integers; there is no microseconds arm (unsigned only), so that hint
falls through to decimal. -/
def format_i128 (x : Int) (hint : Option DisplayHint) : List Char :=
  match hint with
  | some .binary => '0' :: 'b' :: nat_digits 2 ((x % 2 ^ 128).toNat)
  | some (.hexadecimal false) => '0' :: 'x' :: nat_digits 16 ((x % 2 ^ 128).toNat)
  | some (.hexadecimal true) =>
    '0' :: 'x' :: (nat_digits 16 ((x % 2 ^ 128).toNat)).map Char.toUpper
  | _ => (if x < 0 then ['-'] else []) ++ nat_digits 10 x.natAbs

/-- Two lowercase hex digits of a byte (`{:02x}`). -/
def byte_hex2 (b : Nat) : List Char :=
  let ds := nat_digits 16 b
  List.replicate (2 - ds.length) '0' ++ ds

/-- One byte inside the `Ascii` byte-string rendering of `format_bytes`. -/
def ascii_escape_byte (b : Nat) : List Char :=
  if b == 9 then ['\\', 't']
  else if b == 10 then ['\\', 'n']
  else if b == 13 then ['\\', 'r']
  else if b == 32 then [' ']
  else if b == 34 then ['\\', '"']
  else if b == 92 then ['\\', '\\']
  else if 0x21 ≤ b && b ≤ 0x7E then [Char.ofNat b]
  else '\\' :: 'x' :: byte_hex2 b

/-- Comma-space join of rendered pieces. -/
def comma_join (xs : List (List Char)) : List Char :=
  match xs with
  | [] => []
  | x :: rest => x ++ (rest.map fun y => ',' :: ' ' :: y).flatten

/-- `format_bytes`: `Ascii` renders a byte-string literal, `Hexadecimal`
and `Binary` render a bracketed per-byte list under the hint, anything
else is the structural `{:?}` dump (bracketed decimal). -/
def format_bytes (bytes : List Nat) (hint : Option DisplayHint) : List Char :=
  match hint with
  | some .ascii =>
    'b' :: '"' :: (bytes.map ascii_escape_byte).flatten ++ ['"']
  | some (.hexadecimal u) =>
    '[' :: comma_join (bytes.map fun b => format_u128 b (some (.hexadecimal u))) ++ [']']
  | some .binary =>
    '[' :: comma_join (bytes.map fun b => format_u128 b (some .binary)) ++ [']']
  | _ => '[' :: comma_join (bytes.map fun b => nat_digits 10 b) ++ [']']

/-- Modelled from the spec: the `Debug` hint "applies quoting/escaping"
(Rust `{:?}` of `str`); the common escapes are modelled, other characters
are kept verbatim. -/
def escape_debug_char (c : Char) : List Char :=
  if c = '"' then ['\\', '"']
  else if c = '\\' then ['\\', '\\']
  else if c = Char.ofNat 10 then ['\\', 'n']
  else if c = Char.ofNat 13 then ['\\', 'r']
  else if c = Char.ofNat 9 then ['\\', 't']
  else [c]

/-- `format_str`: verbatim by default, quoted and escaped under the
`Debug` hint. -/
def format_str (s : List Char) (hint : Option DisplayHint) : List Char :=
  if hint == some DisplayHint.debug then '"' :: (s.map escape_debug_char).flatten ++ ['"']
  else s

/-- Big-endian byte decomposition (`u128::to_be_bytes` when `n = 16`). -/
def be_bytes (n : Nat) (v : Nat) : List Nat :=
  match n with
  | 0 => []
  | k + 1 => be_bytes k (v / 256) ++ [v % 256]

/-- The `Ascii`-hinted `FormatSlice` special case: every element must be a
single `Uxx` argument in `u8` range, or the Rust code panics
(`expect`/`panic!`). -/
def collect_u8_elems : List FormatSliceElement → Option (List Nat)
  | [] => some []
  | e :: rest =>
    match e.args with
    | [Arg.uxx v] => if v < 256 then (collect_u8_elems rest).map (v :: ·) else none
    | _ => none

/-- The environment of the formatter: the external format parser, the
external `ryu` float renderers (shortest round-trip decimal, keyed by the
raw bit pattern), and the shared-cell store that `Arc<Bool>` arguments
point into. -/
structure FmtEnv where
  parse : List Char → Option (List Fragment)
  ryu32 : Nat → List Char
  ryu64 : Nat → List Char
  cells : List (Nat × Bool)

/-- The `Uxx`-with-`BitField` rendering arm of `format_args_real`:
isolate the bits with `(x << (128 - end)) >> (128 - end + start)`; under
the `Ascii` hint render the big-endian bytes above the start bit as a byte
string.  `none` models the debug-build panics of the shift arithmetic
(underflow of `128 - end`, shifts of 128 or more when `end = 0` or
`start >= end`). -/
def format_bitfield (x : Nat) (start stop : Nat) (hint : Option DisplayHint) :
    Option (List Char) :=
  if stop > 128 then none
  else
    let left_zeroes := 128 - stop
    let right_zeroes := left_zeroes + start
    if 128 ≤ left_zeroes || 128 ≤ right_zeroes then none
    else
      let bitfields := ((x <<< left_zeroes) % 2 ^ 128) >>> right_zeroes
      if hint == some DisplayHint.ascii then
        some (format_bytes ((be_bytes 16 bitfields).drop (right_zeroes / 8)) hint)
      else
        some (format_u128 bitfields hint)

mutual

/-- `format_args` / `format_args_real`: render a format string against a
decoded argument list.  Writing into the in-memory buffer cannot fail, so
the `fmt::Error` channel is dead; the result is `none` exactly where the
Rust code panics instead: a format string the parser rejects
(`parse(..).unwrap()`), a parameter index outside the argument list
(`args[param.index]`), a bitfield shift out of range, or the Ascii
byte-string special case meeting a slice element that is not a single
in-range `u8`. -/
def format_args (env : FmtEnv) (format : List Char) (args : List Arg)
    (parent_hint : Option DisplayHint) : Option (List Char) :=
  match env.parse format with
  | none => none
  | some frags => format_frags env frags args parent_hint
termination_by (sizeOf args, 2, 0)

/-- The fragment loop of `format_args_real`: literals verbatim, parameters
rendered by argument variant with the parameter's own hint taking
precedence over the parent's. -/
def format_frags (env : FmtEnv) (frags : List Fragment) (args : List Arg)
    (parent_hint : Option DisplayHint) : Option (List Char) :=
  match frags with
  | [] => some []
  | .literal lit :: rest =>
    match format_frags env rest args parent_hint with
    | none => none
    | some tail => some (lit ++ tail)
  | .parameter p :: rest =>
    match h : args[p.index]? with
    | none => none
    | some arg =>
      match format_param env p arg (p.hint <|> parent_hint) with
      | none => none
      | some s =>
        match format_frags env rest args parent_hint with
        | none => none
        | some tail => some (s ++ tail)
termination_by (sizeOf args, 1, sizeOf frags)
decreasing_by
  all_goals first
    | decreasing_tactic
    | (have hms := List.sizeOf_lt_of_mem (List.getElem?_mem h)
       simp at hms
       decreasing_tactic)

/-- Rendering of one located argument against its parameter's type and
effective hint: the big per-variant match of `format_args_real`. -/
def format_param (env : FmtEnv) (p : Parameter) (arg : Arg)
    (hint : Option DisplayHint) : Option (List Char) :=
  match arg with
  | .boolRef id =>
    some (if (env.cells.lookup id).getD false then "true".toList else "false".toList)
  | .f32 bits => some (env.ryu32 bits)
  | .f64 bits => some (env.ryu64 bits)
  | .uxx x =>
    match p.ty with
    | .bitField start stop => format_bitfield x start stop hint
    | _ => some (format_u128 x hint)
  | .ixx x => some (format_i128 x hint)
  | .str s => some (format_str s hint)
  | .preformatted s => some (format_str s hint)
  | .istr s => some (format_str s hint)
  | .format f a => format_args env f a hint
  | .formatSlice elements =>
    if hint == some DisplayHint.ascii &&
        !(elements.filter fun e => e.format == "{=u8}".toList).isEmpty then
      match collect_u8_elems elements with
      | none => none
      | some vals => some (format_bytes vals hint)
    else
      match format_slice_elems env elements hint true with
      | none => none
      | some body => some ('[' :: body ++ [']'])
  | .slice x => some (format_bytes x hint)
  | .char c => some [c]
termination_by (sizeOf arg, 0, 0)

/-- The element loop of the default `FormatSlice` rendering: brackets
around the comma-joined recursive renderings, the hint inherited by every
element. -/
def format_slice_elems (env : FmtEnv) (elements : List FormatSliceElement)
    (hint : Option DisplayHint) (is_first : Bool) : Option (List Char) :=
  match elements with
  | [] => some []
  | .mk f a :: rest =>
    match format_args env f a hint with
    | none => none
    | some s =>
      match format_slice_elems env rest hint false with
      | none => none
      | some tail => some ((if is_first then [] else [',', ' ']) ++ s ++ tail)
termination_by (sizeOf elements, 0, 0)

end

mutual

/-- The well-formedness predicate under which the formatter cannot panic:
every reachable format string parses, every parameter index lands inside
its argument list, bitfield parameters rendered against `Uxx` arguments
have `0 < stop ≤ 128` and `start < stop` (so the isolation shifts stay
below 128), and the Ascii byte-string special case only meets slices whose
elements are single in-range `u8` values. -/
def args_wf (env : FmtEnv) (format : List Char) (args : List Arg)
    (parent_hint : Option DisplayHint) : Bool :=
  match env.parse format with
  | none => false
  | some frags => frags_wf env frags args parent_hint
termination_by (sizeOf args, 2, 0)

/-- Fragment-level part of `args_wf`. -/
def frags_wf (env : FmtEnv) (frags : List Fragment) (args : List Arg)
    (parent_hint : Option DisplayHint) : Bool :=
  match frags with
  | [] => true
  | .literal _ :: rest => frags_wf env rest args parent_hint
  | .parameter p :: rest =>
    (match h : args[p.index]? with
     | none => false
     | some arg => param_wf env p arg (p.hint <|> parent_hint)) &&
      frags_wf env rest args parent_hint
termination_by (sizeOf args, 1, sizeOf frags)
decreasing_by
  all_goals first
    | decreasing_tactic
    | (have hms := List.sizeOf_lt_of_mem (List.getElem?_mem h)
       simp at hms
       decreasing_tactic)

/-- Per-argument part of `args_wf`. -/
def param_wf (env : FmtEnv) (p : Parameter) (arg : Arg)
    (hint : Option DisplayHint) : Bool :=
  match arg with
  | .uxx _ =>
    match p.ty with
    | .bitField start stop => decide (0 < stop ∧ stop ≤ 128 ∧ start < stop)
    | _ => true
  | .format f a => args_wf env f a hint
  | .formatSlice elements =>
    if hint == some DisplayHint.ascii &&
        !(elements.filter fun e => e.format == "{=u8}".toList).isEmpty then
      (collect_u8_elems elements).isSome
    else elems_wf env elements hint
  | _ => true
termination_by (sizeOf arg, 0, 0)

/-- Element-level part of `args_wf`. -/
def elems_wf (env : FmtEnv) (elements : List FormatSliceElement)
    (hint : Option DisplayHint) : Bool :=
  match elements with
  | [] => true
  | .mk f a :: rest => args_wf env f a hint && elems_wf env rest hint
termination_by (sizeOf elements, 0, 0)

end


/-- The smallest unsigned little-endian width holding `0..=k`. -/
def discriminant_width (k : Nat) : Nat :=
  if k < 2 ^ 8 then 1 else if k < 2 ^ 16 then 2 else if k < 2 ^ 32 then 4 else 8

/-- The machine width a bitfield span is rounded up to: 1–4 bytes exactly,
5–8 as a u64, 9–16 as a u128. -/
def byte_width (span : Nat) : Nat :=
  if span ≤ 4 then span else if span ≤ 8 then 8 else 16

/-- A concrete external parser for the format-slice claims: `F` is a
format string holding one nested `Format` parameter, `I` one `u8`
parameter, `A` one `u16` parameter. -/
def c5_parse : List Char → Option (List Fragment)
  | ['F'] => some [.parameter ⟨0, .format, none⟩]
  | ['I'] => some [.parameter ⟨0, .u8, none⟩]
  | ['A'] => some [.parameter ⟨0, .u16, none⟩]
  | _ => none

/-- A table interning `F` at index 1 and `I` at index 2 (both non-level). -/
def c5_tbl : Table := ⟨none, [(1, ⟨⟨.derived, ['F']⟩, []⟩), (2, ⟨⟨.derived, ['I']⟩, []⟩)]⟩

/-- A concrete parser/environment for the formatter claims: `P` holds one
`u8` parameter at index 0. -/
def c4_parse : List Char → Option (List Fragment)
  | ['P'] => some [.parameter ⟨0, .u8, none⟩]
  | _ => none

/-- A formatter environment over `c4_parse` with trivial float renderers
and an empty cell store. -/
def c4_env : FmtEnv := ⟨c4_parse, fun _ => [], fun _ => [], []⟩

/-- A concrete external parser for the C2 witness: `I` holds one `u8`
parameter. -/
def c2_parse : List Char → Option (List Fragment)
  | ['I'] => some [.parameter ⟨0, .u8, none⟩]
  | _ => none

/-- A table with no timestamp entry and the `Info`-level format `I` at
index 1. -/
def c2_tbl : Table := ⟨none, [(1, ⟨⟨.info, ['I']⟩, []⟩)]⟩

/-- The frame decoded from `[1, 5]` with `c2_tbl`. -/
def c2_frame : Frame := ⟨.info, 1, none, [], ['I'], [.uxx 5]⟩

section Claims

/-- C9: `check_version(firmware_version)` succeeds exactly when the
firmware version string equals the decoder's compiled-in version constant
character for character; any inequality produces the descriptive
diagnostic string (the result type has no decode-error channel). -/
theorem c9_check_version (defmt_version version : List Char) :
    check_version defmt_version version =
      if version = defmt_version then .ok ()
      else .error (version_mismatch_message defmt_version version) := by
  unfold check_version
  by_cases h : version = defmt_version <;> simp [h]

/-- C10: for every table (with or without a timestamp entry), every parse
function and every fuel budget, decoding the empty byte slice fails with
`UnexpectedEof`: the leading LEB128 read of the log index fails before the
table is consulted. -/
theorem c10_decode_empty (parse : List Char → Option (List Fragment))
    (tbl : Table) (fuel : Nat) :
    decode parse tbl fuel [] = .error .unexpectedEof := by
  simp [decode, decode_core, read_leb128, leb128_read]

/-- The mask test of the unpack loop is the tested bit of the flush
byte. -/
theorem and_shift_ne_zero (B j : Nat) : ((B &&& (1 <<< j)) != 0) = B.testBit j := by
  rw [Nat.one_shiftLeft, Nat.and_two_pow]
  cases h : B.testBit j <;> simp [h, Nat.pow_eq_zero]

/-- Closed form of the unpack loop: starting the flag index at `k`, the
`i`-th cell receives bit `k - 1 - i` of the flush byte. -/
theorem unpack_bools_eq (B : Nat) (cells : List Nat) (k : Nat) :
    unpack_bools B cells k =
      (List.range cells.length).map fun i => (cells.getD i 0, B.testBit (k - 1 - i)) := by
  induction cells generalizing k with
  | nil => simp [unpack_bools]
  | cons c cs ih =>
    rw [unpack_bools, ih (k - 1)]
    simp only [List.length_cons, List.range_succ_eq_map, List.map_cons, List.map_map]
    refine congrArg₂ _ ?_ ?_
    · simp [and_shift_ne_zero]
    · refine List.map_congr_left fun i _ => ?_
      simp only [Function.comp]
      refine congrArg₂ _ rfl ?_
      have : k - 1 - 1 - i = k - 1 - (i + 1) := by omega
      simp [this]

/-- A successful packed-bool flush always clears the pending list. -/
theorem read_and_unpack_bools_clears {st st1 : DecSt}
    (h : read_and_unpack_bools st = .ok st1) : st1.bools_tbd = [] := by
  unfold read_and_unpack_bools at h
  cases hb : st.bytes with
  | nil => rw [hb] at h; simp [read_u8] at h
  | cons b r =>
    rw [hb] at h
    simp only [read_u8] at h
    cases h
    rfl

/-- C1: a flush of the packed-bool pending list with pending count `n`
(`1 ≤ n ≤ 8`) and flush byte `B` gives the `i`-th pending cell (insertion
order) bit `n - 1 - i` of `B` — bits of `B` at positions `≥ n` cannot
matter, which the statement records by reading the bits of `B % 2 ^ n` —
consumes exactly the flush byte, and leaves the pending list empty.
Moreover the flush is invoked exactly at the two flush points: a `Bool`
parameter that brings the pending count to `MAX_NUM_BOOL_FLAGS = 8`
triggers it immediately (second conjunct), a `Bool` parameter below the cap
reads no byte at all (third conjunct), and a completed top-level decode
always ends with an empty pending list, the final flush having run exactly
when the list was non-empty (fourth conjunct). -/
theorem c1_packed_bool_flush :
    (∀ (st : DecSt) (B : Nat) (rest : List Nat),
      st.bytes = B :: rest → 1 ≤ st.bools_tbd.length → st.bools_tbd.length ≤ 8 →
      read_and_unpack_bools st = .ok { st with
        bytes := rest
        bools_tbd := []
        cell_vals := st.cell_vals ++ ((List.range st.bools_tbd.length).map fun i =>
          (st.bools_tbd.getD i 0,
            (B % 2 ^ st.bools_tbd.length).testBit (st.bools_tbd.length - 1 - i))) }) ∧
    (∀ parse tbl fuel (p : Parameter) params args (st : DecSt),
      p.ty = .bool → st.bools_tbd.length + 1 = MAX_NUM_BOOL_FLAGS →
      decode_params parse tbl fuel (p :: params) args st =
        match read_and_unpack_bools { st with
            next_cell := st.next_cell + 1
            bools_tbd := st.bools_tbd ++ [st.next_cell] } with
        | .error e => .error e
        | .ok st1 =>
          decode_params parse tbl fuel params (args ++ [.boolRef st.next_cell]) st1) ∧
    (∀ parse tbl fuel (p : Parameter) params args (st : DecSt),
      p.ty = .bool → st.bools_tbd.length + 1 < MAX_NUM_BOOL_FLAGS →
      decode_params parse tbl fuel (p :: params) args st =
        decode_params parse tbl fuel params (args ++ [.boolRef st.next_cell])
          { st with
            next_cell := st.next_cell + 1
            bools_tbd := st.bools_tbd ++ [st.next_cell] }) ∧
    (∀ parse tbl fuel bytes frame (st : DecSt),
      decode_core parse tbl fuel bytes = .ok (frame, st) → st.bools_tbd = []) := by
  refine ⟨?_, ?_, ?_, ?_⟩
  · intro st B rest hb h1 h8
    have hx : unpack_bools B st.bools_tbd st.bools_tbd.length =
        (List.range st.bools_tbd.length).map fun i =>
          (st.bools_tbd.getD i 0,
            (B % 2 ^ st.bools_tbd.length).testBit (st.bools_tbd.length - 1 - i)) := by
      rw [unpack_bools_eq]
      refine List.map_congr_left fun i hi => ?_
      rw [List.mem_range] at hi
      have hlt : st.bools_tbd.length - 1 - i < st.bools_tbd.length := by omega
      rw [Nat.testBit_mod_two_pow]
      simp [hlt]
    unfold read_and_unpack_bools
    rw [hb]
    simp only [read_u8]
    rw [hx]
  · intro parse tbl fuel p params args st hty hlen
    obtain ⟨pi, pty, ph⟩ := p
    simp only at hty
    subst hty
    rw [decode_params]
    simp only [List.length_append, List.length_cons, List.length_nil]
    have : st.bools_tbd.length + (0 + 1) = MAX_NUM_BOOL_FLAGS := by omega
    simp [this]
  · intro parse tbl fuel p params args st hty hlen
    obtain ⟨pi, pty, ph⟩ := p
    simp only at hty
    subst hty
    rw [decode_params]
    simp only [List.length_append, List.length_cons, List.length_nil]
    have : ¬ (st.bools_tbd.length + (0 + 1) = MAX_NUM_BOOL_FLAGS) := by
      simp [MAX_NUM_BOOL_FLAGS] at hlen ⊢
      omega
    simp [this]
  · intro parse tbl fuel bytes frame st h
    unfold decode_core at h
    cases hleb : read_leb128 bytes with
    | error e => simp [hleb] at h
    | ok v =>
      obtain ⟨idx, rest⟩ := v
      rw [hleb] at h
      simp only at h
      cases hts : tbl.timestamp with
      | none =>
        rw [hts] at h
        simp only at h
        cases hlv : tbl.get_with_level idx with
        | none => rw [hlv] at h; simp at h
        | some lv =>
          obtain ⟨level, format⟩ := lv
          rw [hlv] at h
          simp only at h
          cases hdf : decode_format parse tbl fuel format
              { bytes := rest, format_list := none, below_enum := false,
                bools_tbd := [], next_cell := 0, cell_vals := [] } with
          | error e => rw [hdf] at h; simp at h
          | ok w =>
            obtain ⟨args, st3⟩ := w
            rw [hdf] at h
            simp only at h
            by_cases hemp : st3.bools_tbd.isEmpty
            · rw [if_pos hemp] at h
              simp only at h
              have : st3 = st := by
                simpa using congrArg (fun r => match r with
                  | Except.ok (_, s) => s
                  | Except.error _ => st3) h
              rw [← this]
              simpa [List.isEmpty_iff] using hemp
            · rw [if_neg hemp] at h
              cases hfl : read_and_unpack_bools st3 with
              | error e => rw [hfl] at h; simp at h
              | ok st4 =>
                rw [hfl] at h
                simp only [Except.ok.injEq, Prod.mk.injEq] at h
                rw [← h.2]
                exact read_and_unpack_bools_clears hfl
      | some entry =>
        rw [hts] at h
        simp only at h
        cases hdf0 : decode_format parse tbl fuel entry.string.string
            { bytes := rest, format_list := none, below_enum := false,
              bools_tbd := [], next_cell := 0, cell_vals := [] } with
        | error e => rw [hdf0] at h; simp at h
        | ok w0 =>
          obtain ⟨targs, st2⟩ := w0
          rw [hdf0] at h
          simp only at h
          cases hlv : tbl.get_with_level idx with
          | none => rw [hlv] at h; simp at h
          | some lv =>
            obtain ⟨level, format⟩ := lv
            rw [hlv] at h
            simp only at h
            cases hdf : decode_format parse tbl fuel format st2 with
            | error e => rw [hdf] at h; simp at h
            | ok w =>
              obtain ⟨args, st3⟩ := w
              rw [hdf] at h
              simp only at h
              by_cases hemp : st3.bools_tbd.isEmpty
              · rw [if_pos hemp] at h
                simp only [Except.ok.injEq, Prod.mk.injEq] at h
                rw [← h.2]
                simpa [List.isEmpty_iff] using hemp
              · rw [if_neg hemp] at h
                cases hfl : read_and_unpack_bools st3 with
                | error e => rw [hfl] at h; simp at h
                | ok st4 =>
                  rw [hfl] at h
                  simp only [Except.ok.injEq, Prod.mk.injEq] at h
                  rw [← h.2]
                  exact read_and_unpack_bools_clears hfl

/-- Witness for C1, at `n = 3`, `B = 0b101`, cells `[0, 1, 2]`: the cells
receive `1, 0, 1` in insertion order, the flush byte is consumed and the
pending list is cleared. -/
theorem c1_witness :
    read_and_unpack_bools ⟨[5, 9], none, false, [0, 1, 2], 3, []⟩ =
      .ok ⟨[9], none, false, [], 3, [(0, true), (1, false), (2, true)]⟩ := by
  rw [c1_packed_bool_flush.1 ⟨[5, 9], none, false, [0, 1, 2], 3, []⟩ 5 [9] rfl
    (by decide) (by decide)]
  rfl

/-- `split_char` never produces the empty list. -/
theorem split_char_ne_nil (sep : Char) (l : List Char) : split_char sep l ≠ [] := by
  cases l with
  | nil => simp [split_char]
  | cons c rest =>
    rw [split_char]
    cases h : split_char sep rest with
    | nil => simp
    | cons x t => by_cases hc : c = sep <;> simp [hc]

/-- Rust's `split` yields one piece per separator occurrence plus one. -/
theorem split_char_length (sep : Char) (l : List Char) :
    (split_char sep l).length = l.count sep + 1 := by
  induction l with
  | nil => simp [split_char]
  | cons c rest ih =>
    rw [split_char]
    cases h : split_char sep rest with
    | nil => exact absurd h (split_char_ne_nil sep rest)
    | cons x t =>
      rw [h] at ih
      simp only [List.length_cons] at ih
      by_cases hc : c = sep
      · subst hc
        simp only [if_pos rfl, List.length_cons, List.count_cons, beq_self_eq_true,
          if_true]
        omega
      · have hbc : (c == sep) = false := by simp [hc]
        simp only [if_neg hc, List.length_cons, List.count_cons, hbc,
          Bool.false_eq_true, if_false]
        omega

/-- Exact little-endian reads consume exactly their width. -/
theorem read_le_exact (w : Nat) (dbytes rest : List Nat) (hw : dbytes.length = w) :
    read_le w (dbytes ++ rest) = .ok (le_val dbytes, rest) := by
  unfold read_le
  rw [if_neg (by simp [List.length_append]; omega)]
  rw [← hw, List.take_left, List.drop_left]

/-- Variant selection: the `d`-th pipe-separated piece exists exactly when
`d` does not exceed the pipe count. -/
theorem select_variant (format : List Char) (st : DecSt) (rest : List Nat) (d : Nat) :
    (match (split_char '|' format)[d]? with
      | some variant => Except.ok (variant, { st with bytes := rest })
      | none => (Except.error DecodeError.malformed : Except DecodeError (List Char × DecSt))) =
    (if d ≤ format.count '|' then
      Except.ok ((split_char '|' format).getD d [], { st with bytes := rest })
    else Except.error DecodeError.malformed) := by
  by_cases hd : d ≤ format.count '|'
  · have hlt : d < (split_char '|' format).length := by
      rw [split_char_length]; omega
    rw [List.getElem?_eq_getElem hlt]
    simp [hd, List.getD, List.getElem?_eq_getElem hlt]
  · have hge : (split_char '|' format).length ≤ d := by
      rw [split_char_length]; omega
    rw [List.getElem?_eq_none hge]
    simp [hd]

/-- C6: for an enum format string with `k` pipe characters (`k ≥ 1`, and
`k < 2^64` as on the 64-bit host), the discriminant is read little-endian
at the smallest width holding `0..=k` (1 byte if `k ≤ 255`, 2 if
`k ≤ 65535`, 4 if `k ≤ 2^32-1`, 8 if `k ≤ 2^64-1`), the selected variant
is the discriminant-th pipe-separated slice of the format string, and a
discriminant greater than `k` yields `Malformed`. -/
theorem c6_get_variant (format : List Char) (st : DecSt) (dbytes rest : List Nat)
    (hpipe : format.contains '|' = true)
    (hk : format.count '|' < 2 ^ 64)
    (hb : st.bytes = dbytes ++ rest)
    (hw : dbytes.length = discriminant_width (format.count '|')) :
    get_variant format st =
      if le_val dbytes ≤ format.count '|' then
        .ok ((split_char '|' format).getD (le_val dbytes) [], { st with bytes := rest })
      else .error .malformed := by
  simp only [get_variant, hpipe, Bool.not_true, Bool.false_eq_true, if_false]
  rw [hb]
  by_cases h1 : format.count '|' < 2 ^ 8
  · have hw1 : dbytes.length = 1 := by
      rw [hw]; unfold discriminant_width; rw [if_pos h1]
    obtain ⟨b, rfl⟩ := List.length_eq_one.mp hw1
    rw [if_pos h1]
    exact select_variant format st rest b
  · by_cases h2 : format.count '|' < 2 ^ 16
    · have hw2 : dbytes.length = 2 := by
        rw [hw]; unfold discriminant_width; rw [if_neg h1, if_pos h2]
      rw [if_neg h1, if_pos h2, read_le_exact 2 dbytes rest hw2]
      exact select_variant format st rest (le_val dbytes)
    · by_cases h3 : format.count '|' < 2 ^ 32
      · have hw3 : dbytes.length = 4 := by
          rw [hw]; unfold discriminant_width; rw [if_neg h1, if_neg h2, if_pos h3]
        rw [if_neg h1, if_neg h2, if_pos h3, read_le_exact 4 dbytes rest hw3]
        exact select_variant format st rest (le_val dbytes)
      · have hw8 : dbytes.length = 8 := by
          rw [hw]; unfold discriminant_width; rw [if_neg h1, if_neg h2, if_neg h3]
        rw [if_neg h1, if_neg h2, if_neg h3, if_pos hk, read_le_exact 8 dbytes rest hw8]
        exact select_variant format st rest (le_val dbytes)

/-- Witness for C6: the format `A|B` has one pipe, so the discriminant is
one byte; discriminant 1 selects the second variant `B` and consumes one
byte. -/
theorem c6_witness :
    get_variant ['A', '|', 'B'] ⟨[1, 7], none, false, [], 0, []⟩ =
      .ok (['B'], ⟨[7], none, false, [], 0, []⟩) := by
  rw [c6_get_variant ['A', '|', 'B'] ⟨[1, 7], none, false, [], 0, []⟩ [1] [7]
    (by decide) (by decide) rfl (by decide)]
  rfl

/-- C7: a `BitField(start..stop)` parameter with `0 < start ∨ 0 < stop`,
`start < stop`, span `⌈stop/8⌉ - ⌊start/8⌋` within the enumerated machine
widths (at most 16, as the external parser's 0..128 bit ranges guarantee)
and `start < 128` (so the byte shift fits the u128), reads exactly
`byte_width span` bytes little-endian and stores the value left-shifted by
`⌊start/8⌋ * 8` bits (reduced into the 128-bit width). -/
theorem c7_bitfield (parse : List Char → Option (List Fragment)) (tbl : Table)
    (fuel : Nat) (p : Parameter) (params : List Parameter) (args : List Arg)
    (st : DecSt) (start stop : Nat) (dbytes rest : List Nat)
    (hty : p.ty = .bitField start stop)
    (hpos : 0 < start ∨ 0 < stop) (hlt : start < stop)
    (hspan : (stop + 7) / 8 - start / 8 ≤ 16)
    (hstart : start < 128)
    (hb : st.bytes = dbytes ++ rest)
    (hw : dbytes.length = byte_width ((stop + 7) / 8 - start / 8)) :
    decode_params parse tbl fuel (p :: params) args st =
      decode_params parse tbl fuel params
        (args ++ [.uxx ((le_val dbytes <<< (start / 8 * 8)) % 2 ^ 128)])
        { st with bytes := rest } := by
  obtain ⟨pi, pty, ph⟩ := p
  simp only at hty
  subst hty
  have h0 : (stop == 0) = false := by simp; omega
  have hhl : ¬ ((stop - 1) / 8 < start / 8) := by omega
  have hsize : (stop - 1) / 8 - start / 8 + 1 = (stop + 7) / 8 - start / 8 := by omega
  have hsh : ¬ (128 ≤ start / 8 * 8) := by omega
  rw [decode_params]
  simp only [h0, Bool.false_eq_true, if_false, if_neg hhl, hsize, hb]
  by_cases hc1 : (stop + 7) / 8 - start / 8 ≤ 4
  · have hw1 : dbytes.length = (stop + 7) / 8 - start / 8 := by
      rw [hw]; unfold byte_width; rw [if_pos hc1]
    rw [if_pos hc1, read_le_exact _ dbytes rest hw1]
    simp only [if_neg hsh]
  · by_cases hc2 : (stop + 7) / 8 - start / 8 ≤ 8
    · have hw2 : dbytes.length = 8 := by
        rw [hw]; unfold byte_width; rw [if_neg hc1, if_pos hc2]
      rw [if_neg hc1, if_pos hc2, read_le_exact 8 dbytes rest hw2]
      simp only [if_neg hsh]
    · have hw3 : dbytes.length = 16 := by
        rw [hw]; unfold byte_width; rw [if_neg hc1, if_neg hc2]
      rw [if_neg hc1, if_neg hc2, if_pos hspan, read_le_exact 16 dbytes rest hw3]
      simp only [if_neg hsh]

/-- Witness for C7, at `BitField(9..14)`: span `⌈14/8⌉ - ⌊9/8⌋ = 1`, so one
byte is read and shifted left by 8 bits. -/
theorem c7_witness :
    decode_params (fun _ => none) ⟨none, []⟩ 3
        [⟨0, .bitField 9 14, none⟩] [] ⟨[0x63], none, false, [], 0, []⟩ =
      .ok ([.uxx 0x6300], ⟨[], none, false, [], 0, []⟩) := by
  rw [c7_bitfield (fun _ => none) ⟨none, []⟩ 3 ⟨0, .bitField 9 14, none⟩ [] []
    ⟨[0x63], none, false, [], 0, []⟩ 9 14 [0x63] [] rfl (by decide) (by decide)
    (by decide) (by decide) rfl (by decide)]
  rw [decode_params]
  rfl

/-- First-sentinel position in `pre ++ 0xFF :: rest` when `pre` is
sentinel-free. -/
theorem find_sentinel_aux (pre rest : List Nat) (hnot : 255 ∉ pre) :
    ∀ i, List.findIdx? (fun b => b == 255) (pre ++ 255 :: rest) i =
      some (pre.length + i) := by
  induction pre with
  | nil => intro i; simp [List.findIdx?]
  | cons a t ih =>
    intro i
    have h1 : (a == 255) = false := by
      simp only [beq_eq_false_iff_ne, ne_eq]
      intro h
      exact hnot (by simp [h])
    have h2 : 255 ∉ t := fun h => hnot (List.mem_cons_of_mem _ h)
    rw [List.cons_append, List.findIdx?_cons, h1]
    simp only [Bool.false_eq_true, if_false, ih h2 (i + 1)]
    refine congrArg _ ?_
    simp only [List.length_cons]
    omega

/-- First-sentinel position in `pre ++ 0xFF :: rest` when `pre` is
sentinel-free. -/
theorem find_sentinel (pre rest : List Nat) (hnot : 255 ∉ pre) :
    (pre ++ 255 :: rest).findIdx? (fun b => b == 255) = some pre.length := by
  rw [find_sentinel_aux pre rest hnot 0]
  rfl

/-- A sentinel-free byte stream makes the `Debug`/`Display` scan fail with
`UnexpectedEof`. -/
theorem decode_preformatted_none (st : DecSt) (h : 255 ∉ st.bytes) :
    decode_preformatted st = .error .unexpectedEof := by
  unfold decode_preformatted
  rw [List.findIdx?_eq_none_iff.mpr]
  intro x hx
  simp only [beq_eq_false_iff_ne, ne_eq]
  intro hxe
  exact h (hxe ▸ hx)

/-- Splitting at the first sentinel: the bytes before it are UTF-8 decoded
(failure is `Malformed`) and the sentinel is consumed too. -/
theorem decode_preformatted_split (st : DecSt) (pre rest : List Nat)
    (hb : st.bytes = pre ++ 255 :: rest) (hn : 255 ∉ pre) :
    decode_preformatted st =
      match utf8_decode pre with
      | some s => .ok (s, { st with bytes := rest })
      | none => .error .malformed := by
  unfold decode_preformatted
  rw [hb, find_sentinel pre rest hn]
  have htake : (pre ++ 255 :: rest).take pre.length = pre := List.take_left pre _
  have hdrop : (pre ++ 255 :: rest).drop (pre.length + 1) = rest := by
    rw [← List.drop_drop, List.drop_left]
    rfl
  simp only [htake, hdrop]
  cases utf8_decode pre <;> rfl

/-- C8: a `Debug`/`Display` parameter scans the remaining bytes for the
`0xFF` sentinel: with no sentinel present the result is `UnexpectedEof`;
otherwise the bytes before the first sentinel must be valid UTF-8
(`Malformed` if not) and become a `Preformatted` argument, the sentinel
byte being consumed as well. -/
theorem c8_debug_display (parse : List Char → Option (List Fragment))
    (tbl : Table) (fuel : Nat) (p : Parameter) (params : List Parameter)
    (args : List Arg) (st : DecSt)
    (hty : p.ty = .debug ∨ p.ty = .display) :
    (255 ∉ st.bytes →
      decode_params parse tbl fuel (p :: params) args st = .error .unexpectedEof) ∧
    (∀ pre rest, st.bytes = pre ++ 255 :: rest → 255 ∉ pre →
      decode_params parse tbl fuel (p :: params) args st =
        match utf8_decode pre with
        | some s =>
          decode_params parse tbl fuel params (args ++ [.preformatted s])
            { st with bytes := rest }
        | none => .error .malformed) := by
  obtain ⟨pi, pty, ph⟩ := p
  constructor
  · intro hmem
    rcases hty with h | h <;> simp only at h <;> subst h <;>
      rw [decode_params] <;>
      simp only [decode_preformatted_none st hmem]
  · intro pre rest hb hn
    rcases hty with h | h <;> simp only at h <;> subst h <;>
      rw [decode_params] <;>
      rw [decode_preformatted_split st pre rest hb hn] <;>
      cases utf8_decode pre <;> rfl

/-- Witness for C8: bytes `"hi"` then the sentinel then a trailing byte;
the decoded argument is `Preformatted "hi"` and the sentinel is
consumed. -/
theorem c8_witness :
    decode_params (fun _ => none) ⟨none, []⟩ 3 [⟨0, .debug, none⟩] []
        ⟨[104, 105, 255, 7], none, false, [], 0, []⟩ =
      .ok ([.preformatted ['h', 'i']], ⟨[7], none, false, [], 0, []⟩) := by
  rw [(c8_debug_display (fun _ => none) ⟨none, []⟩ 3 ⟨0, .debug, none⟩ [] []
    ⟨[104, 105, 255, 7], none, false, [], 0, []⟩ (Or.inl rfl)).2
    [104, 105] [7] rfl (by decide)]
  rw [show utf8_decode [104, 105] = some ['h', 'i'] from by decide]
  simp [decode_params]

/-- Counterexample to C5: a format slice decoded while an ambient Build
list is active (the situation inside the first element of an outer slice
that already interned `A`).  The slice's shared format `F` holds one nested
`Format` reference.  The first element reads index 2 from the stream and
interns `I`; the second element is decoded with the use-list cursor
starting at the snapshot 2 — not 0 — so its nested reference resolves to
`I` (and it reads the u8 payload 7).  Had the cursor been reset to 0 as the
claim states, the reference would have resolved to `A` (a `u16`), and
decoding the one remaining byte would in fact have failed with
`UnexpectedEof` (second conjunct). -/
theorem c5_counterexample :
    decode_format_slice c5_parse c5_tbl 5 2
        ⟨[1, 2, 42, 7], some (.build [['A']]), false, [], 0, []⟩ =
      .ok ([⟨['F'], [.format ['I'] [.uxx 42]]⟩, ⟨['F'], [.format ['I'] [.uxx 7]]⟩],
        ⟨[], some (.build [['A'], ['F'], ['I']]), false, [], 0, []⟩) ∧
    decode_format c5_parse c5_tbl 4 ['F']
        ⟨[7], some (.use [['A'], ['F'], ['I']] 0), false, [], 0, []⟩ =
      .error .unexpectedEof ∧
    (['I'] : List Char) ≠ ['A'] := by
  refine ⟨?_, ?_, by decide⟩
  · simp +decide [decode_format_slice, decode_elems, decode_format, decode_params,
      get_format, get_format_from_stream, get_variant, c5_parse, c5_tbl, prepare_params,
      merge_bitfields, merge_step, get_max_bitfield_range, bitfield_with_index,
      dedup_by_index, read_u8, read_le, read_leb128, leb128_read,
      Table.get_without_level, Table.get_raw, Tag.to_level, List.range_succ, le_val,
      List.lookup]
  · simp +decide [decode_format, decode_params, get_format, get_format_from_stream,
      c5_parse, c5_tbl, prepare_params, merge_bitfields, merge_step,
      get_max_bitfield_range, Tag.to_level, bitfield_with_index, dedup_by_index, read_le,
      List.range_succ]

/-- `get_variant` only advances the byte cursor; it never touches the
format-list state. -/
theorem get_variant_preserves (format : List Char) (st : DecSt) (v : List Char)
    (st' : DecSt) (h : get_variant format st = .ok (v, st')) :
    st'.format_list = st.format_list := by
  simp only [get_variant] at h
  split at h
  · simp at h
  · split at h
    · simp at h
    · split at h
      · simp only [Except.ok.injEq, Prod.mk.injEq] at h
        rw [← h.2]
      · simp at h

/-- C5 amended: after the first element of a format slice, each element is
decoded with the use-list cursor reset *per element* — to 0 when no format
list was active when the slice began (the top-level case the spec
describes), and to the snapshot taken before the first element (the
ambient Build-list length) when the slice is nested inside an active Build
list; in the latter case the ambient Build list is restored unchanged
after the element. -/
theorem c5_amended (parse : List Char → Option (List Fragment)) (tbl : Table)
    (fuel : Nat) (shared : List Char) (is_enum : Bool) (n : Nat)
    (formats : List (List Char)) (cursor : Nat) (acc : List FormatSliceElement)
    (st : DecSt) :
    (st.format_list = none →
      decode_elems parse tbl fuel shared is_enum (n + 1) false formats cursor acc st =
        match (if is_enum then get_variant shared st else .ok (shared, st)) with
        | .error e => .error e
        | .ok (format, st1) =>
          match decode_format parse tbl fuel format
              { st1 with format_list := some (.use formats 0) } with
          | .error e => .error e
          | .ok (args, st2) =>
            decode_elems parse tbl fuel shared is_enum n false formats cursor
              (acc ++ [⟨format, args⟩]) { st2 with format_list := none }) ∧
    (∀ fs, st.format_list = some (.build fs) →
      decode_elems parse tbl fuel shared is_enum (n + 1) false formats cursor acc st =
        match (if is_enum then get_variant shared st else .ok (shared, st)) with
        | .error e => .error e
        | .ok (format, st1) =>
          match decode_format parse tbl fuel format
              { st1 with format_list := some (.use fs cursor) } with
          | .error e => .error e
          | .ok (args, st2) =>
            decode_elems parse tbl fuel shared is_enum n false formats cursor
              (acc ++ [⟨format, args⟩]) { st2 with format_list := some (.build fs) }) := by
  constructor
  · intro h
    rw [decode_elems]
    cases hv : (if is_enum then get_variant shared st else Except.ok (shared, st)) with
    | error e => rfl
    | ok pair =>
      obtain ⟨format, st1⟩ := pair
      have hfl : st1.format_list = none := by
        rw [← h]
        cases he : is_enum with
        | false => rw [he] at hv; simp at hv; rw [← hv.2]
        | true =>
          rw [he] at hv
          simp only [if_true] at hv
          exact get_variant_preserves shared st format st1 hv
      simp only [hfl, Bool.false_eq_true, if_false]
  · intro fs h
    rw [decode_elems]
    cases hv : (if is_enum then get_variant shared st else Except.ok (shared, st)) with
    | error e => rfl
    | ok pair =>
      obtain ⟨format, st1⟩ := pair
      have hfl : st1.format_list = some (.build fs) := by
        rw [← h]
        cases he : is_enum with
        | false => rw [he] at hv; simp at hv; rw [← hv.2]
        | true =>
          rw [he] at hv
          simp only [if_true] at hv
          exact get_variant_preserves shared st format st1 hv
      simp only [hfl, Bool.false_eq_true, if_false]

/-- Witness for the amended C5, at the top-level (no ambient format list)
case: a non-first element of a non-enum slice with built list `[I]` is
decoded with a fresh cursor-0 use list and the ambient `none` is
restored. -/
theorem c5_witness :
    decode_elems c5_parse c5_tbl 3 ['I'] false 1 false [['I']] 0 []
        ⟨[5], none, false, [], 0, []⟩ =
      .ok ([⟨['I'], [.uxx 5]⟩], ⟨[], none, false, [], 0, []⟩) := by
  rw [(c5_amended c5_parse c5_tbl 3 ['I'] false 0 [['I']] 0 []
    ⟨[5], none, false, [], 0, []⟩).1 rfl]
  simp +decide [decode_format, decode_params, decode_elems, c5_parse, prepare_params,
    merge_bitfields, merge_step, get_max_bitfield_range, bitfield_with_index,
    dedup_by_index, read_u8, List.range_succ]

theorem format_frags_parameter (env : FmtEnv) (p : Parameter) (rest : List Fragment)
    (args : List Arg) (ph : Option DisplayHint) :
    format_frags env (.parameter p :: rest) args ph =
      match args[p.index]? with
      | none => none
      | some arg =>
        match format_param env p arg (p.hint <|> ph) with
        | none => none
        | some s =>
          match format_frags env rest args ph with
          | none => none
          | some tail => some (s ++ tail) := by
  rw [format_frags]
  cases hx : args[p.index]? <;> rfl

theorem frags_wf_parameter (env : FmtEnv) (p : Parameter) (rest : List Fragment)
    (args : List Arg) (ph : Option DisplayHint) :
    frags_wf env (.parameter p :: rest) args ph =
      ((match args[p.index]? with
        | none => false
        | some arg => param_wf env p arg (p.hint <|> ph)) &&
        frags_wf env rest args ph) := by
  rw [frags_wf]
  cases hx : args[p.index]? <;> rfl

/-- With a positive stop at most 128 and start below stop, the bitfield
shifts are in range and the rendering succeeds. -/
theorem format_bitfield_isSome (x start stop : Nat) (hint : Option DisplayHint)
    (h1 : 0 < stop) (h2 : stop ≤ 128) (h3 : start < stop) :
    (format_bitfield x start stop hint).isSome = true := by
  unfold format_bitfield
  rw [if_neg (by omega : ¬ stop > 128)]
  have hc : ¬ ((128 ≤ 128 - stop || 128 ≤ 128 - stop + start) = true) := by
    simp
    omega
  rw [if_neg hc]
  split <;> simp

theorem formatter_total_aux (N : Nat) :
    (∀ (env : FmtEnv) (format : List Char) (args : List Arg) (ph : Option DisplayHint),
      sizeOf args ≤ N → args_wf env format args ph = true →
      (format_args env format args ph).isSome = true) ∧
    (∀ (env : FmtEnv) (frags : List Fragment) (args : List Arg) (ph : Option DisplayHint),
      sizeOf args ≤ N → frags_wf env frags args ph = true →
      (format_frags env frags args ph).isSome = true) ∧
    (∀ (env : FmtEnv) (p : Parameter) (arg : Arg) (hint : Option DisplayHint),
      sizeOf arg ≤ N → param_wf env p arg hint = true →
      (format_param env p arg hint).isSome = true) ∧
    (∀ (env : FmtEnv) (elements : List FormatSliceElement) (hint : Option DisplayHint)
      (b : Bool), sizeOf elements ≤ N → elems_wf env elements hint = true →
      (format_slice_elems env elements hint b).isSome = true) := by
  induction N using Nat.strong_induction_on with
  | _ N IH =>
    have hPp : ∀ (env : FmtEnv) (p : Parameter) (arg : Arg) (hint : Option DisplayHint),
        sizeOf arg ≤ N → param_wf env p arg hint = true →
        (format_param env p arg hint).isSome = true := by
      intro env p arg hint hN hwf
      cases arg with
      | uxx x =>
        rw [format_param]
        rw [param_wf] at hwf
        split
        · next start stop heq =>
          rw [heq] at hwf
          simp only [decide_eq_true_eq] at hwf
          exact format_bitfield_isSome x start stop hint hwf.1 hwf.2.1 hwf.2.2
        · simp
      | format f a =>
        rw [format_param]
        rw [param_wf] at hwf
        have hlt : sizeOf a < N := by
          refine lt_of_lt_of_le ?_ hN
          simp
        exact (IH (sizeOf a) hlt).1 env f a hint (le_refl _) hwf
      | formatSlice elements =>
        rw [format_param]
        rw [param_wf] at hwf
        by_cases hg : (hint == some DisplayHint.ascii &&
            !(elements.filter fun e => e.format == "{=u8}".toList).isEmpty) = true
        · rw [if_pos hg] at hwf ⊢
          cases hc : collect_u8_elems elements with
          | none => rw [hc] at hwf; simp at hwf
          | some vals => simp [hc]
        · rw [if_neg hg] at hwf ⊢
          have hlt : sizeOf elements < N := by
            refine lt_of_lt_of_le ?_ hN
            simp
          have hse := (IH (sizeOf elements) hlt).2.2.2 env elements hint true (le_refl _) hwf
          cases hs : format_slice_elems env elements hint true with
          | none => rw [hs] at hse; simp at hse
          | some body => simp [hs]
      | boolRef id => simp [format_param]
      | f32 bits => simp [format_param]
      | f64 bits => simp [format_param]
      | ixx v => simp [format_param]
      | str s => simp [format_param]
      | istr s => simp [format_param]
      | slice bs => simp [format_param]
      | char c => simp [format_param]
      | preformatted s => simp [format_param]
    have hR : ∀ (env : FmtEnv) (elements : List FormatSliceElement)
        (hint : Option DisplayHint) (b : Bool), sizeOf elements ≤ N →
        elems_wf env elements hint = true →
        (format_slice_elems env elements hint b).isSome = true := by
      intro env elements
      induction elements with
      | nil => intro hint b _ _; simp [format_slice_elems]
      | cons e rest ihe =>
        intro hint b hN hwf
        obtain ⟨f, a⟩ := e
        rw [elems_wf] at hwf
        simp only [Bool.and_eq_true] at hwf
        obtain ⟨hwa, hwr⟩ := hwf
        have hlt : sizeOf a < N := by
          refine lt_of_lt_of_le ?_ hN
          simp
          omega
        have hfa := (IH (sizeOf a) hlt).1 env f a hint (le_refl _) hwa
        have hN' : sizeOf rest ≤ N := by
          refine le_trans ?_ hN
          simp
        have htail := ihe hint false hN' hwr
        rw [format_slice_elems]
        cases hfa' : format_args env f a hint with
        | none => rw [hfa'] at hfa; simp at hfa
        | some s =>
          cases ht' : format_slice_elems env rest hint false with
          | none => rw [ht'] at htail; simp at htail
          | some t => simp [hfa', ht']
    have hQ : ∀ (env : FmtEnv) (frags : List Fragment) (args : List Arg)
        (ph : Option DisplayHint), sizeOf args ≤ N →
        frags_wf env frags args ph = true →
        (format_frags env frags args ph).isSome = true := by
      intro env frags args ph
      induction frags with
      | nil => intro _ _; simp [format_frags]
      | cons frag rest ihf =>
        intro hN hwf
        cases frag with
        | literal lit =>
          rw [frags_wf] at hwf
          have htail := ihf hN hwf
          rw [format_frags]
          cases h' : format_frags env rest args ph with
          | none => rw [h'] at htail; simp at htail
          | some t => simp [h']
        | parameter p =>
          rw [frags_wf_parameter] at hwf
          simp only [Bool.and_eq_true] at hwf
          obtain ⟨hwp, hwr⟩ := hwf
          have htail := ihf hN hwr
          rw [format_frags_parameter]
          cases hx : args[p.index]? with
          | none => rw [hx] at hwp; simp at hwp
          | some arg =>
            rw [hx] at hwp
            have hwp' : param_wf env p arg (p.hint <|> ph) = true := hwp
            have harg : sizeOf arg < N := by
              have hm := List.sizeOf_lt_of_mem (List.getElem?_mem hx)
              omega
            have hp := (IH (sizeOf arg) harg).2.2.1 env p arg (p.hint <|> ph)
              (le_refl _) hwp'
            cases hfp : format_param env p arg (p.hint <|> ph) with
            | none => rw [hfp] at hp; simp at hp
            | some s =>
              cases h' : format_frags env rest args ph with
              | none => rw [h'] at htail; simp at htail
              | some tail => simp [hfp, h']
    have hP : ∀ (env : FmtEnv) (format : List Char) (args : List Arg)
        (ph : Option DisplayHint), sizeOf args ≤ N →
        args_wf env format args ph = true →
        (format_args env format args ph).isSome = true := by
      intro env format args ph hN hwf
      rw [args_wf] at hwf
      rw [format_args]
      cases hp : env.parse format with
      | none => rw [hp] at hwf; simp at hwf
      | some frags =>
        rw [hp] at hwf
        exact hQ env frags args ph hN hwf
    exact ⟨hP, hQ, hPp, hR⟩

/-- Counterexample to C4: the format string `P` references argument 0, so
rendering it against the empty argument list hits the `args[param.index]`
indexing panic — the formatter does not return a string for all
combinations of parameter indices and argument lists. -/
theorem c4_counterexample : format_args c4_env ['P'] [] none = none := by
  rw [format_args]
  rw [show c4_env.parse ['P'] = some [.parameter ⟨0, .u8, none⟩] from rfl]
  show format_frags c4_env [.parameter ⟨0, .u8, none⟩] [] none = none
  rw [format_frags_parameter]
  rfl

/-- C4 amended: the formatter terminates and returns a rendered string for
every format string and argument list that are well formed for it — every
reachable format string parses, every parameter index lands inside its
argument list, bitfields have `0 < end ≤ 128` and `start < end`, and
Ascii-hinted byte-string slices carry single in-range `u8` elements; hint
and type mismatches fall back to the default rendering (the formatter's
catch-all arms) rather than failing. -/
theorem c4_amended (env : FmtEnv) (format : List Char) (args : List Arg)
    (ph : Option DisplayHint) (hwf : args_wf env format args ph = true) :
    ∃ s, format_args env format args ph = some s := by
  have h := (formatter_total_aux (sizeOf args)).1 env format args ph (le_refl _) hwf
  exact Option.isSome_iff_exists.mp h

/-- Witness for the amended C4. -/
theorem c4_witness : ∃ s, format_args c4_env ['P'] [.uxx 5] none = some s :=
  c4_amended c4_env ['P'] [.uxx 5] none (by
    rw [args_wf]
    rw [show c4_env.parse ['P'] = some [.parameter ⟨0, .u8, none⟩] from rfl]
    show frags_wf c4_env [.parameter ⟨0, .u8, none⟩] [.uxx 5] none = true
    rw [frags_wf_parameter]
    rw [show ([Arg.uxx 5])[(⟨0, Ty.u8, none⟩ : Parameter).index]? = some (Arg.uxx 5) from rfl]
    simp [param_wf, frags_wf])

/-- A successful one-byte read leaves a suffix of the input. -/
theorem read_u8_suffix {bytes rest : List Nat} {b : Nat}
    (h : read_u8 bytes = .ok (b, rest)) : rest <:+ bytes := by
  cases bytes with
  | nil => simp [read_u8] at h
  | cons x xs =>
    simp only [read_u8, Except.ok.injEq, Prod.mk.injEq] at h
    rw [← h.2]
    exact List.suffix_cons x xs

/-- A successful little-endian read leaves a suffix of the input. -/
theorem read_le_suffix {n : Nat} {bytes rest : List Nat} {v : Nat}
    (h : read_le n bytes = .ok (v, rest)) : rest <:+ bytes := by
  unfold read_le at h
  split at h
  · simp at h
  · simp only [Except.ok.injEq, Prod.mk.injEq] at h
    rw [← h.2]
    exact List.drop_suffix n bytes

/-- A successful exact byte read leaves a suffix of the input. -/
theorem read_bytes_exact_suffix {n : Nat} {bytes rest taken : List Nat}
    (h : read_bytes_exact n bytes = .ok (taken, rest)) : rest <:+ bytes := by
  unfold read_bytes_exact at h
  split at h
  · simp at h
  · simp only [Except.ok.injEq, Prod.mk.injEq] at h
    rw [← h.2]
    exact List.drop_suffix n bytes

/-- A successful LEB128 read leaves a suffix of the input. -/
theorem leb128_read_suffix :
    ∀ (bytes : List Nat) (shift acc v : Nat) (rest : List Nat),
      leb128_read bytes shift acc = .ok (v, rest) → rest <:+ bytes := by
  intro bytes
  induction bytes with
  | nil => intro shift acc v rest h; simp [leb128_read] at h
  | cons b bs ih =>
    intro shift acc v rest h
    rw [leb128_read] at h
    split at h
    · simp at h
    · split at h
      · simp only [Except.ok.injEq, Prod.mk.injEq] at h
        rw [← h.2]
        exact List.suffix_cons b bs
      · exact (ih _ _ _ _ h).trans (List.suffix_cons b bs)

/-- A successful top-level LEB128 read leaves a suffix of the input. -/
theorem read_leb128_suffix {bytes rest : List Nat} {v : Nat}
    (h : read_leb128 bytes = .ok (v, rest)) : rest <:+ bytes :=
  leb128_read_suffix bytes 0 0 v rest h

/-- A successful packed-bool flush consumes one byte. -/
theorem read_and_unpack_bools_suffix {st st1 : DecSt}
    (h : read_and_unpack_bools st = .ok st1) : st1.bytes <:+ st.bytes := by
  unfold read_and_unpack_bools at h
  cases hb : st.bytes with
  | nil => rw [hb] at h; simp [read_u8] at h
  | cons b r =>
    rw [hb] at h
    simp only [read_u8] at h
    cases h
    exact List.suffix_cons b r

/-- Resolving a format reference from the stream leaves a byte suffix. -/
theorem get_format_from_stream_suffix {tbl : Table} {st st' : DecSt} {f : List Char}
    (h : get_format_from_stream tbl st = .ok (f, st')) : st'.bytes <:+ st.bytes := by
  unfold get_format_from_stream at h
  cases hl : read_leb128 st.bytes with
  | error e => rw [hl] at h; simp at h
  | ok pair =>
    obtain ⟨index, rest⟩ := pair
    rw [hl] at h
    simp only at h
    have hr : rest <:+ st.bytes := read_leb128_suffix hl
    split at h
    · simp at h
    · split at h
      · split at h
        · simp only [Except.ok.injEq, Prod.mk.injEq] at h
          rw [← h.2]
          exact hr
        · simp only [Except.ok.injEq, Prod.mk.injEq] at h
          rw [← h.2]
          exact hr
      · simp only [Except.ok.injEq, Prod.mk.injEq] at h
        rw [← h.2]
        exact hr

/-- `get_format` leaves a byte suffix. -/
theorem get_format_suffix {tbl : Table} {st st' : DecSt} {f : List Char}
    (h : get_format tbl st = .ok (f, st')) : st'.bytes <:+ st.bytes := by
  unfold get_format at h
  split at h
  · split at h
    · simp only [Except.ok.injEq, Prod.mk.injEq] at h
      rw [← h.2]
    · exact get_format_from_stream_suffix h
  · exact get_format_from_stream_suffix h

/-- `get_variant` leaves a byte suffix. -/
theorem get_variant_suffix {fmt : List Char} {st st' : DecSt} {v : List Char}
    (h : get_variant fmt st = .ok (v, st')) : st'.bytes <:+ st.bytes := by
  simp only [get_variant] at h
  split at h
  · simp at h
  · split at h
    · simp at h
    · next d rest heq =>
      have hr : rest <:+ st.bytes := by
        split at heq
        · exact read_u8_suffix heq
        · split at heq
          · exact read_le_suffix heq
          · split at heq
            · exact read_le_suffix heq
            · split at heq
              · exact read_le_suffix heq
              · simp at heq
      split at h
      · simp only [Except.ok.injEq, Prod.mk.injEq] at h
        rw [← h.2]
        exact hr
      · simp at h

/-- The `Debug`/`Display` scan leaves a byte suffix. -/
theorem decode_preformatted_suffix {st st' : DecSt} {s : List Char}
    (h : decode_preformatted st = .ok (s, st')) : st'.bytes <:+ st.bytes := by
  unfold decode_preformatted at h
  split at h
  · simp at h
  · split at h
    · simp at h
    · simp only [Except.ok.injEq, Prod.mk.injEq] at h
      rw [← h.2]
      exact List.drop_suffix _ _

/-- The per-element variant resolution step leaves a byte suffix. -/
theorem variant_step_suffix {is_enum : Bool} {shared : List Char} {st st1 : DecSt}
    {format : List Char}
    (h : (if is_enum then get_variant shared st else Except.ok (shared, st)) =
      .ok (format, st1)) : st1.bytes <:+ st.bytes := by
  split at h
  · exact get_variant_suffix h
  · simp only [Except.ok.injEq, Prod.mk.injEq] at h
    rw [← h.2]

/-- The bitfield read of `decode_params` (1-4, 8 or 16 bytes little endian)
only consumes bytes from the front. -/
theorem bitfield_read_suffix {a v : Nat} {bs rest : List Nat}
    (h : (if a ≤ 4 then read_le a bs
          else if a ≤ 8 then read_le 8 bs
          else if a ≤ 16 then read_le 16 bs
          else Except.error DecodeError.panicked) = Except.ok (v, rest)) :
    rest <:+ bs := by
  split at h
  · exact read_le_suffix h
  · split at h
    · exact read_le_suffix h
    · split at h
      · exact read_le_suffix h
      · exact Except.noConfusion h

/-- Every decoder stage only consumes bytes from the front: on success the
remaining byte stream is a suffix of the input byte stream. -/
theorem decode_suffix (parse : List Char → Option (List Fragment)) (tbl : Table) :
    ∀ fuel : Nat,
    (∀ fmt st args st', decode_format parse tbl fuel fmt st = .ok (args, st') →
      st'.bytes <:+ st.bytes) ∧
    (∀ ps args0 st args st', decode_params parse tbl fuel ps args0 st = .ok (args, st') →
      st'.bytes <:+ st.bytes) ∧
    (∀ n st elems st', decode_format_slice parse tbl fuel n st = .ok (elems, st') →
      st'.bytes <:+ st.bytes) ∧
    (∀ shared ie n isf fs cur acc st elems st',
      decode_elems parse tbl fuel shared ie n isf fs cur acc st = .ok (elems, st') →
      st'.bytes <:+ st.bytes) := by
  intro fuel
  induction fuel using Nat.strong_induction_on with
  | _ fuel IH =>
    have hfmt : ∀ fmt st args st',
        decode_format parse tbl fuel fmt st = .ok (args, st') →
        st'.bytes <:+ st.bytes := by
      intro fmt st args st' h
      cases fuel with
      | zero => simp [decode_format] at h
      | succ k =>
        simp only [decode_format] at h
        split at h
        · simp at h
        · exact (IH k (by omega)).2.1 _ _ _ _ _ h
    have helems : ∀ shared ie n isf fs cur acc st elems st',
        decode_elems parse tbl fuel shared ie n isf fs cur acc st = .ok (elems, st') →
        st'.bytes <:+ st.bytes := by
      intro shared ie n
      induction n with
      | zero =>
        intro isf fs cur acc st elems st' h
        simp only [decode_elems, Except.ok.injEq, Prod.mk.injEq] at h
        rw [← h.2]
      | succ m ihe =>
        intro isf fs cur acc st elems st' h
        simp only [decode_elems] at h
        repeat' split at h
        all_goals
          first
          | exact Except.noConfusion h
          | (have hv := variant_step_suffix (by assumption)
             have hf := hfmt _ _ _ _ (by assumption)
             have h0 := ihe _ _ _ _ _ _ _ h
             exact h0.trans (hf.trans hv))
    have hslice : ∀ n st elems st',
        decode_format_slice parse tbl fuel n st = .ok (elems, st') →
        st'.bytes <:+ st.bytes := by
      intro n st elems st' h
      simp only [decode_format_slice] at h
      split at h
      · simp only [Except.ok.injEq, Prod.mk.injEq] at h
        rw [← h.2]
      · split at h
        · simp at h
        · rename_i format st1 hgf
          split at h
          · simp at h
          · rename_i elements2 st2 hde
            simp only [Except.ok.injEq, Prod.mk.injEq] at h
            have hgfs : st1.bytes <:+ st.bytes := get_format_suffix hgf
            have hd := helems _ _ _ _ _ _ _ _ _ _ hde
            have hb1 : (if (format.contains '|') = true then
                { st1 with below_enum := true } else st1).bytes = st1.bytes := by
              split <;> rfl
            rw [hb1] at hd
            have hb2 : (if (format.contains '|') = true then
                { st2 with below_enum := st1.below_enum } else st2).bytes = st2.bytes := by
              split <;> rfl
            rw [← h.2, hb2]
            exact hd.trans hgfs
    have hparams : ∀ ps args0 st args st',
        decode_params parse tbl fuel ps args0 st = .ok (args, st') →
        st'.bytes <:+ st.bytes := by
      intro ps
      induction ps with
      | nil =>
        intro args0 st args st' h
        simp only [decode_params, Except.ok.injEq, Prod.mk.injEq] at h
        rw [← h.2]
      | cons p rest ihp =>
        intro args0 st args st' h
        obtain ⟨pi, pty, ph⟩ := p
        cases pty <;>
          simp only [decode_params] at h <;>
          (repeat' split at h) <;>
          first
          | exact Except.noConfusion h
          | (have h0 := ihp _ _ _ _ h
             exact h0)
          | (have h1 := read_u8_suffix (by assumption)
             have h2 := read_le_suffix (by assumption)
             have h0 := ihp _ _ _ _ h
             exact h0.trans (h2.trans h1))
          | (have h1 := read_leb128_suffix (by assumption)
             have h2 := read_bytes_exact_suffix (by assumption)
             have h0 := ihp _ _ _ _ h
             exact h0.trans (h2.trans h1))
          | (have h1 := get_format_suffix (by assumption)
             have h2 := get_variant_suffix (by assumption)
             have h3 := hfmt _ _ _ _ (by assumption)
             have h0 := ihp _ _ _ _ h
             exact h0.trans ((h3.trans h2).trans h1))
          | (have h1 := get_format_suffix (by assumption)
             have h3 := hfmt _ _ _ _ (by assumption)
             have h0 := ihp _ _ _ _ h
             exact h0.trans (h3.trans h1))
          | (have h1 := read_leb128_suffix (by assumption)
             have h2 := hslice _ _ _ _ (by assumption)
             have h0 := ihp _ _ _ _ h
             exact h0.trans (h2.trans h1))
          | (have h2 := hslice _ _ _ _ (by assumption)
             have h0 := ihp _ _ _ _ h
             exact h0.trans h2)
          | (have h1 := read_u8_suffix (by assumption)
             have h0 := ihp _ _ _ _ h
             exact h0.trans h1)
          | (have h1 := read_le_suffix (by assumption)
             have h0 := ihp _ _ _ _ h
             exact h0.trans h1)
          | (have h1 := read_leb128_suffix (by assumption)
             have h0 := ihp _ _ _ _ h
             exact h0.trans h1)
          | (have h1 := read_bytes_exact_suffix (by assumption)
             have h0 := ihp _ _ _ _ h
             exact h0.trans h1)
          | (have h1 := decode_preformatted_suffix (by assumption)
             have h0 := ihp _ _ _ _ h
             exact h0.trans h1)
          | (have h1 := read_and_unpack_bools_suffix (by assumption)
             have h0 := ihp _ _ _ _ h
             exact h0.trans h1)
          | (have h1 := bitfield_read_suffix (by assumption)
             have h0 := ihp _ _ _ _ h
             exact h0.trans h1)
    exact ⟨hfmt, hparams, hslice, helems⟩

/-- Rebuilding a list from the consumed prefix: if `l2` is a suffix of `l`,
taking the first `l.length - l2.length` elements and re-appending `l2`
gives `l` back. -/
theorem take_append_of_suffix {l2 l : List Nat} (h : l2 <:+ l) :
    l.take (l.length - l2.length) ++ l2 = l := by
  obtain ⟨t, rfl⟩ := h
  have hl : (t ++ l2).length - l2.length = t.length := by simp
  rw [hl, List.take_left]

/-- C2: when `decode` succeeds, the returned consumed count is exact: the
remaining bytes are a suffix of the input, `consumed` equals the input
length minus the remaining length, re-appending the remainder to the
consumed prefix rebuilds the input, and `consumed` is the total byte
length of the encoded frame prefix, split over its four stages: the
LEB128 log index, the timestamp arguments when the table has a timestamp
entry, the root format's arguments, and the packed-bool flush byte when
the pending list is non-empty at completion. -/
theorem c2_consumed (parse : List Char → Option (List Fragment)) (tbl : Table)
    (fuel : Nat) (bytes : List Nat) (frame : Frame) (consumed : Nat)
    (h : decode parse tbl fuel bytes = .ok (frame, consumed)) :
    ∃ st' : DecSt,
      decode_core parse tbl fuel bytes = .ok (frame, st') ∧
      st'.bytes <:+ bytes ∧
      consumed = bytes.length - st'.bytes.length ∧
      bytes.take consumed ++ st'.bytes = bytes ∧
      ∃ (rest1 : List Nat) (st1 st2 : DecSt),
        read_leb128 bytes = .ok (frame.index, rest1) ∧
        ((tbl.timestamp = none ∧ frame.timestamp_args = [] ∧
            st1 = ⟨rest1, none, false, [], 0, []⟩) ∨
          (∃ entry, tbl.timestamp = some entry ∧
            decode_format parse tbl fuel entry.string.string
              ⟨rest1, none, false, [], 0, []⟩ = .ok (frame.timestamp_args, st1))) ∧
        tbl.get_with_level frame.index = some (frame.level, frame.format) ∧
        decode_format parse tbl fuel frame.format st1 = .ok (frame.args, st2) ∧
        ((st2.bools_tbd = [] ∧ st' = st2) ∨
          (st2.bools_tbd ≠ [] ∧ read_and_unpack_bools st2 = .ok st')) ∧
        consumed = (bytes.length - rest1.length) + (rest1.length - st1.bytes.length) +
          (st1.bytes.length - st2.bytes.length) + (st2.bytes.length - st'.bytes.length) := by
  unfold decode at h
  cases hc : decode_core parse tbl fuel bytes with
  | error e => rw [hc] at h; exact Except.noConfusion h
  | ok p =>
    obtain ⟨fr, stf⟩ := p
    rw [hc] at h
    simp only [Except.ok.injEq, Prod.mk.injEq] at h
    obtain ⟨hfr, hcons⟩ := h
    subst hfr
    have hc2 := hc
    unfold decode_core at hc2
    cases hleb : read_leb128 bytes with
    | error e => simp [hleb] at hc2
    | ok v =>
      obtain ⟨idx, rest⟩ := v
      rw [hleb] at hc2
      simp only at hc2
      cases hts : tbl.timestamp with
      | none =>
        rw [hts] at hc2
        simp only at hc2
        cases hlv : tbl.get_with_level idx with
        | none => rw [hlv] at hc2; simp at hc2
        | some lv =>
          obtain ⟨level, format⟩ := lv
          rw [hlv] at hc2
          simp only at hc2
          cases hdf : decode_format parse tbl fuel format
              { bytes := rest, format_list := none, below_enum := false,
                bools_tbd := [], next_cell := 0, cell_vals := [] } with
          | error e => rw [hdf] at hc2; simp at hc2
          | ok w =>
            obtain ⟨args, st3⟩ := w
            rw [hdf] at hc2
            simp only at hc2
            by_cases hemp : st3.bools_tbd.isEmpty
            · rw [if_pos hemp] at hc2
              simp only [Except.ok.injEq, Prod.mk.injEq] at hc2
              obtain ⟨hrec, hst⟩ := hc2
              subst hst
              subst hrec
              have hs1 : rest <:+ bytes := read_leb128_suffix hleb
              have hs2 : st3.bytes <:+ rest := (decode_suffix parse tbl fuel).1 _ _ _ _ hdf
              have hsa : st3.bytes <:+ bytes := hs2.trans hs1
              have hl1 : rest.length ≤ bytes.length := hs1.length_le
              have hl2 : st3.bytes.length ≤ rest.length := hs2.length_le
              refine ⟨st3, rfl, hsa, hcons.symm, ?_, rest,
                ⟨rest, none, false, [], 0, []⟩, st3, rfl, Or.inl ⟨rfl, rfl, rfl⟩, hlv, hdf,
                Or.inl ⟨by simpa [List.isEmpty_iff] using hemp, rfl⟩, ?_⟩
              · rw [← hcons]
                exact take_append_of_suffix hsa
              · show consumed = (bytes.length - rest.length) + (rest.length - rest.length) +
                  (rest.length - st3.bytes.length) + (st3.bytes.length - st3.bytes.length)
                omega
            · rw [if_neg hemp] at hc2
              cases hfl : read_and_unpack_bools st3 with
              | error e => rw [hfl] at hc2; simp at hc2
              | ok st4 =>
                rw [hfl] at hc2
                simp only [Except.ok.injEq, Prod.mk.injEq] at hc2
                obtain ⟨hrec, hst⟩ := hc2
                subst hst
                subst hrec
                have hs1 : rest <:+ bytes := read_leb128_suffix hleb
                have hs2 : st3.bytes <:+ rest := (decode_suffix parse tbl fuel).1 _ _ _ _ hdf
                have hs3 : st4.bytes <:+ st3.bytes := read_and_unpack_bools_suffix hfl
                have hsa : st4.bytes <:+ bytes := (hs3.trans hs2).trans hs1
                have hl1 : rest.length ≤ bytes.length := hs1.length_le
                have hl2 : st3.bytes.length ≤ rest.length := hs2.length_le
                have hl3 : st4.bytes.length ≤ st3.bytes.length := hs3.length_le
                refine ⟨st4, rfl, hsa, hcons.symm, ?_, rest,
                  ⟨rest, none, false, [], 0, []⟩, st3, rfl, Or.inl ⟨rfl, rfl, rfl⟩, hlv, hdf,
                  Or.inr ⟨by simpa [List.isEmpty_iff] using hemp, hfl⟩, ?_⟩
                · rw [← hcons]
                  exact take_append_of_suffix hsa
                · show consumed = (bytes.length - rest.length) + (rest.length - rest.length) +
                    (rest.length - st3.bytes.length) + (st3.bytes.length - st4.bytes.length)
                  omega
      | some entry =>
        rw [hts] at hc2
        simp only at hc2
        cases hdf0 : decode_format parse tbl fuel entry.string.string
            { bytes := rest, format_list := none, below_enum := false,
              bools_tbd := [], next_cell := 0, cell_vals := [] } with
        | error e => rw [hdf0] at hc2; simp at hc2
        | ok w0 =>
          obtain ⟨targs, stT⟩ := w0
          rw [hdf0] at hc2
          simp only at hc2
          cases hlv : tbl.get_with_level idx with
          | none => rw [hlv] at hc2; simp at hc2
          | some lv =>
            obtain ⟨level, format⟩ := lv
            rw [hlv] at hc2
            simp only at hc2
            cases hdf : decode_format parse tbl fuel format stT with
            | error e => rw [hdf] at hc2; simp at hc2
            | ok w =>
              obtain ⟨args, st3⟩ := w
              rw [hdf] at hc2
              simp only at hc2
              by_cases hemp : st3.bools_tbd.isEmpty
              · rw [if_pos hemp] at hc2
                simp only [Except.ok.injEq, Prod.mk.injEq] at hc2
                obtain ⟨hrec, hst⟩ := hc2
                subst hst
                subst hrec
                have hs1 : rest <:+ bytes := read_leb128_suffix hleb
                have hsT : stT.bytes <:+ rest := (decode_suffix parse tbl fuel).1 _ _ _ _ hdf0
                have hs2 : st3.bytes <:+ stT.bytes := (decode_suffix parse tbl fuel).1 _ _ _ _ hdf
                have hsa : st3.bytes <:+ bytes := (hs2.trans hsT).trans hs1
                have hl1 : rest.length ≤ bytes.length := hs1.length_le
                have hlT : stT.bytes.length ≤ rest.length := hsT.length_le
                have hl2 : st3.bytes.length ≤ stT.bytes.length := hs2.length_le
                refine ⟨st3, rfl, hsa, hcons.symm, ?_, rest, stT, st3, rfl,
                  Or.inr ⟨entry, rfl, hdf0⟩, hlv, hdf,
                  Or.inl ⟨by simpa [List.isEmpty_iff] using hemp, rfl⟩, ?_⟩
                · rw [← hcons]
                  exact take_append_of_suffix hsa
                · omega
              · rw [if_neg hemp] at hc2
                cases hfl : read_and_unpack_bools st3 with
                | error e => rw [hfl] at hc2; simp at hc2
                | ok st4 =>
                  rw [hfl] at hc2
                  simp only [Except.ok.injEq, Prod.mk.injEq] at hc2
                  obtain ⟨hrec, hst⟩ := hc2
                  subst hst
                  subst hrec
                  have hs1 : rest <:+ bytes := read_leb128_suffix hleb
                  have hsT : stT.bytes <:+ rest := (decode_suffix parse tbl fuel).1 _ _ _ _ hdf0
                  have hs2 : st3.bytes <:+ stT.bytes := (decode_suffix parse tbl fuel).1 _ _ _ _ hdf
                  have hs3 : st4.bytes <:+ st3.bytes := read_and_unpack_bools_suffix hfl
                  have hsa : st4.bytes <:+ bytes := ((hs3.trans hs2).trans hsT).trans hs1
                  have hl1 : rest.length ≤ bytes.length := hs1.length_le
                  have hlT : stT.bytes.length ≤ rest.length := hsT.length_le
                  have hl2 : st3.bytes.length ≤ stT.bytes.length := hs2.length_le
                  have hl3 : st4.bytes.length ≤ st3.bytes.length := hs3.length_le
                  refine ⟨st4, rfl, hsa, hcons.symm, ?_, rest, stT, st3, rfl,
                    Or.inr ⟨entry, rfl, hdf0⟩, hlv, hdf,
                    Or.inr ⟨by simpa [List.isEmpty_iff] using hemp, hfl⟩, ?_⟩
                  · rw [← hcons]
                    exact take_append_of_suffix hsa
                  · omega

/-- Witness for C2: decoding `[1, 5]` (log index 1, `u8` payload 5)
consumes exactly 2 bytes and the stage decomposition is drawn from the
theorem at that concrete input. -/
theorem c2_witness :
    decode c2_parse c2_tbl 3 [1, 5] = .ok (c2_frame, 2) ∧
      (∃ st2 : DecSt,
        decode_core c2_parse c2_tbl 3 [1, 5] = .ok (c2_frame, st2) ∧
        st2.bytes <:+ [1, 5] ∧
        2 = [1, 5].length - st2.bytes.length ∧
        [1, 5].take 2 ++ st2.bytes = [1, 5] ∧
        ∃ (rest1 : List Nat) (stA stB : DecSt),
          read_leb128 [1, 5] = .ok (c2_frame.index, rest1) ∧
          ((c2_tbl.timestamp = none ∧ c2_frame.timestamp_args = [] ∧
              stA = ⟨rest1, none, false, [], 0, []⟩) ∨
            (∃ entry, c2_tbl.timestamp = some entry ∧
              decode_format c2_parse c2_tbl 3 entry.string.string
                ⟨rest1, none, false, [], 0, []⟩ = .ok (c2_frame.timestamp_args, stA))) ∧
          c2_tbl.get_with_level c2_frame.index = some (c2_frame.level, c2_frame.format) ∧
          decode_format c2_parse c2_tbl 3 c2_frame.format stA = .ok (c2_frame.args, stB) ∧
          ((stB.bools_tbd = [] ∧ st2 = stB) ∨
            (stB.bools_tbd ≠ [] ∧ read_and_unpack_bools stB = .ok st2)) ∧
          2 = ([1, 5].length - rest1.length) + (rest1.length - stA.bytes.length) +
            (stA.bytes.length - stB.bytes.length) + (stB.bytes.length - st2.bytes.length)) := by
  have h : decode c2_parse c2_tbl 3 [1, 5] = .ok (c2_frame, 2) := by
    simp +decide [decode, decode_core, decode_format, decode_params, get_format,
      get_format_from_stream, c2_parse, c2_tbl, c2_frame, prepare_params, merge_bitfields,
      merge_step, get_max_bitfield_range, bitfield_with_index, dedup_by_index, read_u8,
      read_leb128, leb128_read, Table.get_with_level, Table.get_raw, Tag.to_level,
      List.range_succ, List.lookup]
  exact ⟨h, c2_consumed c2_parse c2_tbl 3 [1, 5] c2_frame 2 h⟩

/-- The initial accumulator bounds a `foldl max`. -/
theorem foldl_max_init (l : List Nat) : ∀ a : Nat, a ≤ l.foldl max a := by
  induction l with
  | nil => intro a; simp
  | cons h t ih =>
    intro a
    exact le_trans (Nat.le_max_left a h) (ih (max a h))

/-- Every member bounds a `foldl max`. -/
theorem mem_le_foldl_max (l : List Nat) : ∀ (a : Nat), ∀ x ∈ l, x ≤ l.foldl max a := by
  induction l with
  | nil => intro a x hx; simp at hx
  | cons h t ih =>
    intro a x hx
    rcases List.mem_cons.1 hx with rfl | hx
    · exact le_trans (Nat.le_max_right a x) (foldl_max_init t (max a x))
    · exact ih (max a h) x hx

/-- Every index in a parameter list is bounded by `max_param_index`. -/
theorem index_le_max {P : List Parameter} {p : Parameter} (hp : p ∈ P) :
    p.index ≤ max_param_index P :=
  mem_le_foldl_max _ 0 _ (List.mem_map_of_mem _ hp)

/-- `bitfield_with_index` in terms of the type classifier. -/
theorem bitfield_with_index_eq (i : Nat) (p : Parameter) :
    bitfield_with_index i p = ((p.index == i) && p.ty.is_bitfield) := by
  obtain ⟨pi, pty, ph⟩ := p
  cases pty <;> rfl

/-- When some bitfield occurrence at index `i` exists, `merged_at` emits a
merged bitfield entry for `i`. -/
theorem merged_at_isSome {P : List Parameter} {i : Nat} {p : Parameter}
    (hp : p ∈ P) (hb : bitfield_with_index i p = true) :
    ∃ s l, merged_at P i = some ⟨i, .bitField s l, none⟩ := by
  have hmem : p ∈ P.filter (bitfield_with_index i) := List.mem_filter.2 ⟨hp, hb⟩
  cases hf : P.filter (bitfield_with_index i) with
  | nil => rw [hf] at hmem; simp at hmem
  | cons q qs =>
    have hbq : bitfield_with_index i q = true :=
      (List.mem_filter.1 (hf ▸ List.mem_cons_self q qs)).2
    rw [bitfield_with_index_eq, Bool.and_eq_true] at hbq
    have hqbf : q.ty.is_bitfield = true := hbq.2
    unfold merged_at get_max_bitfield_range
    rw [hf]
    cases hqt : q.ty with
    | bitField s e =>
      simp only [List.filterMap_cons, hqt]
      exact ⟨_, _, rfl⟩
    | _ => rw [hqt] at hqbf; simp [Ty.is_bitfield] at hqbf

/-- What a merged entry is: its index, its spanning-bitfield type, and the
existence of a bitfield occurrence behind it. -/
theorem merged_at_some {P : List Parameter} {i : Nat} {r : Parameter}
    (h : merged_at P i = some r) :
    ∃ s l, get_max_bitfield_range (P.filter (bitfield_with_index i)) = some (s, l) ∧
      r = ⟨i, .bitField s l, none⟩ ∧ ∃ p ∈ P, bitfield_with_index i p = true := by
  unfold merged_at at h
  cases hg : get_max_bitfield_range (P.filter (bitfield_with_index i)) with
  | none => rw [hg] at h; exact Option.noConfusion h
  | some sl =>
    obtain ⟨s, l⟩ := sl
    rw [hg] at h
    simp only [Option.some.injEq] at h
    refine ⟨s, l, rfl, h.symm, ?_⟩
    unfold get_max_bitfield_range at hg
    cases hf : P.filter (bitfield_with_index i) with
    | nil => rw [hf] at hg; simp at hg
    | cons q qs =>
      have hq := hf ▸ List.mem_cons_self q qs
      exact ⟨q, (List.mem_filter.1 hq).1, (List.mem_filter.1 hq).2⟩

/-- The sweep of `merge_bitfields` over a duplicate-free index list: the
kept parameters are those that are not bitfields at a swept index, and the
merged entries are drawn per swept index from the original list. -/
theorem foldl_merge_step (idxs : List Nat) :
    ∀ Q A : List Parameter, idxs.Nodup →
      List.foldl merge_step (Q, A) idxs =
        (Q.filter fun p => !idxs.any fun i => bitfield_with_index i p,
         A ++ idxs.filterMap (merged_at Q)) := by
  induction idxs with
  | nil => intro Q A _; simp
  | cons i idxs ih =>
    intro Q A hnd
    have hnd2 : idxs.Nodup := (List.nodup_cons.1 hnd).2
    have hni : i ∉ idxs := (List.nodup_cons.1 hnd).1
    cases hg : get_max_bitfield_range (Q.filter (bitfield_with_index i)) with
    | none =>
      have hnobf : ∀ p ∈ Q, bitfield_with_index i p = false := by
        intro p hp
        by_contra hb
        have hb2 : bitfield_with_index i p = true := by
          cases hx : bitfield_with_index i p
          · exact absurd hx hb
          · rfl
        obtain ⟨s, l, hm⟩ := merged_at_isSome hp hb2
        unfold merged_at at hm
        rw [hg] at hm
        exact Option.noConfusion hm
      have hms : merge_step (Q, A) i = (Q, A) := by
        unfold merge_step
        simp only
        rw [hg]
      rw [List.foldl_cons, hms, ih Q A hnd2]
      have hme : merged_at Q i = none := by unfold merged_at; rw [hg]
      rw [List.filterMap_cons, hme]
      have hfe : (Q.filter fun p => !idxs.any fun j => bitfield_with_index j p) =
          Q.filter fun p => !(i :: idxs).any fun j => bitfield_with_index j p := by
        refine List.filter_congr ?_
        intro p hp
        simp [List.any_cons, hnobf p hp]
      rw [hfe]
    | some sl =>
      obtain ⟨s, l⟩ := sl
      have hms : merge_step (Q, A) i =
          (Q.filter fun p => !bitfield_with_index i p,
           A ++ [⟨i, .bitField s l, none⟩]) := by
        unfold merge_step
        simp only
        rw [hg]
      rw [List.foldl_cons, hms, ih _ _ hnd2]
      have hme : merged_at Q i = some ⟨i, .bitField s l, none⟩ := by
        unfold merged_at; rw [hg]
      rw [List.filterMap_cons, hme]
      refine Prod.ext ?_ ?_
      · show ((Q.filter fun p => !bitfield_with_index i p).filter
            fun p => !idxs.any fun j => bitfield_with_index j p) =
          Q.filter fun p => !(i :: idxs).any fun j => bitfield_with_index j p
        rw [List.filter_filter]
        refine List.filter_congr ?_
        intro p hp
        cases h1 : bitfield_with_index i p <;>
          cases h2 : idxs.any fun j => bitfield_with_index j p <;>
            simp [List.any_cons, h1, h2]
      · show (A ++ [⟨i, .bitField s l, none⟩]) ++
            idxs.filterMap (merged_at (Q.filter fun p => !bitfield_with_index i p)) =
          A ++ (⟨i, .bitField s l, none⟩ :: idxs.filterMap (merged_at Q))
        have hfm : idxs.filterMap
              (merged_at (Q.filter fun p => !bitfield_with_index i p)) =
            idxs.filterMap (merged_at Q) := by
          refine List.filterMap_congr ?_
          intro j hj
          have hij : i ≠ j := fun he => hni (he ▸ hj)
          unfold merged_at
          have hff : ((Q.filter fun p => !bitfield_with_index i p).filter
              (bitfield_with_index j)) = Q.filter (bitfield_with_index j) := by
            rw [List.filter_filter]
            refine List.filter_congr ?_
            intro p hp
            cases hbj : bitfield_with_index j p
            · simp
            · have hpj : p.index = j := by
                rw [bitfield_with_index_eq, Bool.and_eq_true] at hbj
                exact eq_of_beq hbj.1
              have hbi : bitfield_with_index i p = false := by
                rw [bitfield_with_index_eq]
                have hne : (p.index == i) = false := by
                  rw [hpj]
                  cases hji : (j == i)
                  · rfl
                  · exact absurd (eq_of_beq hji) fun he => hij he.symm
                simp [hne]
              simp [hbi]
          rw [hff]
        rw [hfm]
        simp

/-- `merge_bitfields` keeps the non-bitfield parameters (in order) and
appends one merged entry per index that has bitfield occurrences. -/
theorem merge_bitfields_eq (P : List Parameter) :
    merge_bitfields P =
      P.filter (fun p => !p.ty.is_bitfield) ++
        (List.range (max_param_index P + 1)).filterMap (merged_at P) := by
  by_cases hemp : P.isEmpty
  · have hP : P = [] := by
      cases P
      · rfl
      · simp [List.isEmpty] at hemp
    subst hP
    simp [merge_bitfields, merged_at, get_max_bitfield_range]
  · have hz : merge_bitfields P =
        (List.foldl merge_step (P, []) (List.range (max_param_index P + 1))).1 ++
        (List.foldl merge_step (P, []) (List.range (max_param_index P + 1))).2 := by
      unfold merge_bitfields max_param_index
      rw [if_neg hemp]
    rw [hz, foldl_merge_step _ P [] (List.nodup_range _), List.nil_append]
    congr 1
    refine List.filter_congr ?_
    intro p hp
    have hlt : p.index < max_param_index P + 1 := Nat.lt_succ_of_le (index_le_max hp)
    cases hbf : p.ty.is_bitfield
    · have : ∀ i, bitfield_with_index i p = false := by
        intro i
        rw [bitfield_with_index_eq, hbf]
        simp
      simp [List.any_eq_true, this]
    · have hany : ((List.range (max_param_index P + 1)).any
          fun i => bitfield_with_index i p) = true := by
        refine List.any_eq_true.2 ⟨p.index, List.mem_range.2 hlt, ?_⟩
        rw [bitfield_with_index_eq, hbf]
        simp
      rw [hany]

/-- `dedup_by_index` only keeps elements of its input (length-fuelled). -/
theorem dedup_subset_aux (n : Nat) : ∀ L : List Parameter, L.length ≤ n →
    ∀ r ∈ dedup_by_index L, r ∈ L := by
  induction n with
  | zero =>
    intro L hL r hr
    cases L with
    | nil => simp [dedup_by_index] at hr
    | cons a t => simp at hL
  | succ n ih =>
    intro L hL r hr
    rcases L with _ | ⟨p, _ | ⟨q, rest⟩⟩
    · simp [dedup_by_index] at hr
    · simp [dedup_by_index] at hr
      simp [hr]
    · simp only [dedup_by_index] at hr
      by_cases hpq : (q.index == p.index) = true
      · rw [if_pos hpq] at hr
        have hm := ih (p :: rest) (by simp at hL ⊢; omega) r hr
        rcases List.mem_cons.1 hm with rfl | hm
        · exact List.mem_cons_self _ _
        · exact List.mem_cons_of_mem _ (List.mem_cons_of_mem _ hm)
      · rw [if_neg hpq] at hr
        rcases List.mem_cons.1 hr with rfl | hm
        · exact List.mem_cons_self _ _
        · exact List.mem_cons_of_mem _ (ih (q :: rest) (by simp at hL ⊢; omega) r hm)

/-- `dedup_by_index` only keeps elements of its input. -/
theorem dedup_subset {L : List Parameter} {r : Parameter}
    (hr : r ∈ dedup_by_index L) : r ∈ L :=
  dedup_subset_aux L.length L le_rfl r hr

/-- Every index of the input list survives `dedup_by_index`. -/
theorem dedup_cover_aux (n : Nat) : ∀ L : List Parameter, L.length ≤ n →
    ∀ i : Nat, (∃ p ∈ L, p.index = i) → ∃ r ∈ dedup_by_index L, r.index = i := by
  induction n with
  | zero =>
    intro L hL i hex
    obtain ⟨p, hp, _⟩ := hex
    cases L with
    | nil => simp at hp
    | cons a t => simp at hL
  | succ n ih =>
    intro L hL i hex
    rcases L with _ | ⟨p, _ | ⟨q, rest⟩⟩
    · obtain ⟨p, hp, _⟩ := hex
      simp at hp
    · obtain ⟨x, hx, hxi⟩ := hex
      have hx2 : x = p := by simpa using hx
      exact ⟨p, by simp [dedup_by_index], by rw [← hx2]; exact hxi⟩
    · simp only [dedup_by_index]
      by_cases hpq : (q.index == p.index) = true
      · rw [if_pos hpq]
        obtain ⟨x, hx, hxi⟩ := hex
        have hex2 : ∃ x ∈ p :: rest, x.index = i := by
          rcases List.mem_cons.1 hx with rfl | hx2
          · exact ⟨x, List.mem_cons_self _ _, hxi⟩
          · rcases List.mem_cons.1 hx2 with rfl | hx3
            · exact ⟨p, List.mem_cons_self _ _, by rw [← eq_of_beq hpq]; exact hxi⟩
            · exact ⟨x, List.mem_cons_of_mem _ hx3, hxi⟩
        exact ih (p :: rest) (by simp at hL ⊢; omega) i hex2
      · rw [if_neg hpq]
        obtain ⟨x, hx, hxi⟩ := hex
        rcases List.mem_cons.1 hx with rfl | hx2
        · exact ⟨x, List.mem_cons_self _ _, hxi⟩
        · obtain ⟨r, hr, hri⟩ :=
            ih (q :: rest) (by simp at hL ⊢; omega) i ⟨x, hx2, hxi⟩
          exact ⟨r, List.mem_cons_of_mem _ hr, hri⟩

/-- On a list sorted by index, `dedup_by_index` yields strictly increasing
indices. -/
theorem dedup_pairwise_aux (n : Nat) : ∀ L : List Parameter, L.length ≤ n →
    L.Pairwise (fun a b => a.index ≤ b.index) →
    (dedup_by_index L).Pairwise (fun a b => a.index < b.index) := by
  induction n with
  | zero =>
    intro L hL _
    cases L with
    | nil => simp [dedup_by_index]
    | cons a t => simp at hL
  | succ n ih =>
    intro L hL hs
    rcases L with _ | ⟨p, _ | ⟨q, rest⟩⟩
    · simp [dedup_by_index]
    · simp [dedup_by_index]
    · rw [List.pairwise_cons] at hs
      obtain ⟨hple, hs2⟩ := hs
      have hs3 := hs2
      rw [List.pairwise_cons] at hs3
      obtain ⟨hqle, hs4⟩ := hs3
      simp only [dedup_by_index]
      by_cases hpq : (q.index == p.index) = true
      · rw [if_pos hpq]
        refine ih (p :: rest) (by simp at hL ⊢; omega) ?_
        rw [List.pairwise_cons]
        exact ⟨fun x hx => hple x (List.mem_cons_of_mem _ hx), hs4⟩
      · rw [if_neg hpq]
        rw [List.pairwise_cons]
        constructor
        · intro x hx
          have hxm := dedup_subset hx
          have hqx : q.index ≤ x.index := by
            rcases List.mem_cons.1 hxm with rfl | hx2
            · exact le_rfl
            · exact hqle x hx2
          have hne : ¬q.index = p.index := fun he => hpq (by rw [he]; exact beq_self_eq_true _)
          have hle := hple q (List.mem_cons_self _ _)
          omega
        · exact ih (q :: rest) (by simp at hL ⊢; omega) hs2

/-- On a sorted list, `dedup_by_index` keeps the first element of each
index class: `find?` at the kept element\x27s index returns it. -/
theorem dedup_find_aux (n : Nat) : ∀ L : List Parameter, L.length ≤ n →
    L.Pairwise (fun a b => a.index ≤ b.index) →
    ∀ r ∈ dedup_by_index L, L.find? (fun p => p.index == r.index) = some r := by
  induction n with
  | zero =>
    intro L hL _ r hr
    cases L with
    | nil => simp [dedup_by_index] at hr
    | cons a t => simp at hL
  | succ n ih =>
    intro L hL hs r hr
    rcases L with _ | ⟨p, _ | ⟨q, rest⟩⟩
    · simp [dedup_by_index] at hr
    · have hrp : r = p := by simpa [dedup_by_index] using hr
      subst hrp
      simp [List.find?_cons]
    · rw [List.pairwise_cons] at hs
      obtain ⟨hple, hs2⟩ := hs
      have hs3 := hs2
      rw [List.pairwise_cons] at hs3
      obtain ⟨hqle, hs4⟩ := hs3
      simp only [dedup_by_index] at hr
      by_cases hpq : (q.index == p.index) = true
      · rw [if_pos hpq] at hr
        have hsort : (p :: rest).Pairwise (fun a b => a.index ≤ b.index) := by
          rw [List.pairwise_cons]
          exact ⟨fun x hx => hple x (List.mem_cons_of_mem _ hx), hs4⟩
        have hf := ih (p :: rest) (by simp at hL ⊢; omega) hsort r hr
        rw [List.find?_cons] at hf
        cases hpp : (p.index == r.index) with
        | true =>
          rw [hpp] at hf
          rw [List.find?_cons, hpp]
          exact hf
        | false =>
          rw [hpp] at hf
          have hqr : (q.index == r.index) = false := by
            rw [eq_of_beq hpq]
            exact hpp
          rw [List.find?_cons, hpp, List.find?_cons, hqr]
          exact hf
      · rw [if_neg hpq] at hr
        rcases List.mem_cons.1 hr with rfl | hr2
        · simp [List.find?_cons]
        · have hf := ih (q :: rest) (by simp at hL ⊢; omega) hs2 r hr2
          have hrq : q.index ≤ r.index := by
            have hxm := dedup_subset hr2
            rcases List.mem_cons.1 hxm with rfl | hx2
            · exact le_rfl
            · exact hqle _ hx2
          have hne : ¬q.index = p.index := fun he => hpq (by rw [he]; exact beq_self_eq_true _)
          have hle := hple q (List.mem_cons_self _ _)
          have hpr : (p.index == r.index) = false := by
            cases hx : (p.index == r.index)
            · rfl
            · exact absurd (eq_of_beq hx) (by omega)
          rw [List.find?_cons, hpr]
          exact hf

/-- If `find?` returns `r` yet a matching element precedes an occurrence of
`r`, then `r` occurs at least twice. -/
theorem find_pair_count {pred : Parameter → Bool} :
    ∀ {L : List Parameter} {q r : Parameter},
      L.find? pred = some r → [q, r].Sublist L → pred q = true → 2 ≤ L.count r := by
  intro L
  induction L with
  | nil =>
    intro q r hf _ _
    simp at hf
  | cons x L ih =>
    intro q r hf hs hq
    rw [List.find?_cons] at hf
    cases hpx : pred x with
    | true =>
      rw [hpx] at hf
      have hxr : x = r := by simpa using hf
      subst hxr
      have hrL : x ∈ L := by
        cases hs with
        | cons a h => exact h.subset (show x ∈ [q, x] by simp)
        | cons₂ a h => exact h.subset (show x ∈ [x] by simp)
      rw [List.count_cons_self]
      have hpos : 0 < L.count x := List.count_pos_iff.2 hrL
      omega
    | false =>
      rw [hpx] at hf
      have hqx : q ≠ x := fun he => by rw [he, hpx] at hq; exact Bool.noConfusion hq
      have hs2 : [q, r].Sublist L := by
        cases hs with
        | cons a h => exact h
        | cons₂ a h => exact absurd rfl hqx
      have hcount := ih hf hs2 hq
      rw [List.count_cons]
      split <;> omega

/-- Stability of the sort in `prepare_params`: an index-ordered pair of the
input stays in order. -/
theorem pair_sublist_sorted {q r : Parameter} {M : List Parameter}
    (hsub : [q, r].Sublist M) (hle : q.index ≤ r.index) :
    [q, r].Sublist (M.mergeSort fun a b => a.index ≤ b.index) := by
  refine List.pair_sublist_mergeSort ?_ ?_ ?_ hsub
  · intro a b c hab hbc
    simp only [decide_eq_true_eq] at hab hbc ⊢
    omega
  · intro a b
    simp only [Bool.or_eq_true, decide_eq_true_eq]
    exact Nat.le_total _ _
  · simpa using hle

/-- The sort in `prepare_params` sorts by index. -/
theorem mergeSort_sorted_index (M : List Parameter) :
    (M.mergeSort fun a b => a.index ≤ b.index).Pairwise
      fun a b => a.index ≤ b.index := by
  have h := @List.sorted_mergeSort Parameter (fun a b => decide (a.index ≤ b.index))
    (by intro a b c hab hbc; simp only [decide_eq_true_eq] at hab hbc ⊢; omega)
    (by intro a b; simp only [Bool.or_eq_true, decide_eq_true_eq]; exact Nat.le_total _ _) M
  exact h.imp (by intro a b hab; simpa using hab)

/-- The merged entries carry pairwise distinct indices. -/
theorem mergedList_nodup (P : List Parameter) :
    ((List.range (max_param_index P + 1)).filterMap (merged_at P)).Nodup := by
  refine List.Nodup.filterMap ?_ (List.nodup_range _)
  intro a b c hac hbc
  obtain ⟨s, l, _, hra, _⟩ := merged_at_some hac
  obtain ⟨s2, l2, _, hrb, _⟩ := merged_at_some hbc
  simpa using congrArg Parameter.index (hra.symm.trans hrb)

/-- C3: after bitfield coalescing plus the sort-and-dedup of
`prepare_params`, the result has pairwise distinct indices, covers exactly
the indices occurring in the input, and the entry at an index is the
spanning `BitField(min start .. max end)` over the occurrences when every
occurrence at that index is a bitfield, and carries one of the original
types at that index otherwise. -/
theorem c3_prepare_params (P : List Parameter) :
    ((prepare_params P).map (fun p => p.index)).Nodup ∧
    (∀ i, (∃ r ∈ prepare_params P, r.index = i) ↔ ∃ p ∈ P, p.index = i) ∧
    ∀ r ∈ prepare_params P,
      ((∀ p ∈ P, p.index = r.index → p.ty.is_bitfield = true) →
        ∃ s l, get_max_bitfield_range (P.filter fun p => p.index == r.index) =
            some (s, l) ∧ r.ty = .bitField s l) ∧
      ((∃ p ∈ P, p.index = r.index ∧ p.ty.is_bitfield = false) →
        ∃ p ∈ P, p.index = r.index ∧ r.ty = p.ty) := by
  have hMeq := merge_bitfields_eq P
  have hperm := List.mergeSort_perm (merge_bitfields P) fun a b => a.index ≤ b.index
  have hsorted := mergeSort_sorted_index (merge_bitfields P)
  have hPP : prepare_params P =
      dedup_by_index ((merge_bitfields P).mergeSort fun a b => a.index ≤ b.index) := rfl
  refine ⟨?_, ?_, ?_⟩
  · rw [hPP]
    have hplt := dedup_pairwise_aux
      ((merge_bitfields P).mergeSort fun a b => a.index ≤ b.index).length _ le_rfl hsorted
    exact List.pairwise_map.2 (hplt.imp fun h => Nat.ne_of_lt h)
  · intro i
    constructor
    · rintro ⟨r, hr, rfl⟩
      rw [hPP] at hr
      have hrM : r ∈ merge_bitfields P := (hperm.mem_iff).1 (dedup_subset hr)
      rw [hMeq] at hrM
      rcases List.mem_append.1 hrM with hrf | hrm
      · exact ⟨r, (List.mem_filter.1 hrf).1, rfl⟩
      · obtain ⟨j, hj, hmj⟩ := List.mem_filterMap.1 hrm
        obtain ⟨s, l, hg, hrj, p, hp, hbw⟩ := merged_at_some hmj
        refine ⟨p, hp, ?_⟩
        rw [bitfield_with_index_eq, Bool.and_eq_true] at hbw
        rw [hrj]
        exact eq_of_beq hbw.1
    · rintro ⟨p, hp, rfl⟩
      rw [hPP]
      have hexS : ∃ x ∈ (merge_bitfields P).mergeSort fun a b => a.index ≤ b.index,
          x.index = p.index := by
        cases hbf : p.ty.is_bitfield
        · have hpf : p ∈ merge_bitfields P := by
            rw [hMeq]
            exact List.mem_append.2 (Or.inl (List.mem_filter.2 ⟨hp, by rw [hbf]; rfl⟩))
          exact ⟨p, (hperm.mem_iff).2 hpf, rfl⟩
        · have hbw : bitfield_with_index p.index p = true := by
            rw [bitfield_with_index_eq, hbf]
            simp
          obtain ⟨s, l, hm⟩ := merged_at_isSome hp hbw
          have hin : (⟨p.index, .bitField s l, none⟩ : Parameter) ∈
              (List.range (max_param_index P + 1)).filterMap (merged_at P) :=
            List.mem_filterMap.2
              ⟨p.index, List.mem_range.2 (Nat.lt_succ_of_le (index_le_max hp)), hm⟩
          refine ⟨⟨p.index, .bitField s l, none⟩, ?_, rfl⟩
          exact (hperm.mem_iff).2 (by rw [hMeq]; exact List.mem_append.2 (Or.inr hin))
      exact dedup_cover_aux _ _ le_rfl p.index hexS
  · intro r hr
    rw [hPP] at hr
    have hrM : r ∈ merge_bitfields P := (hperm.mem_iff).1 (dedup_subset hr)
    rw [hMeq] at hrM
    constructor
    · intro hall
      rcases List.mem_append.1 hrM with hrf | hrm
      · have h1 := (List.mem_filter.1 hrf).2
        have h2 := hall r (List.mem_filter.1 hrf).1 rfl
        rw [h2] at h1
        exact absurd h1 (by simp)
      · obtain ⟨j, hj, hmj⟩ := List.mem_filterMap.1 hrm
        obtain ⟨s, l, hg, hrj, hex⟩ := merged_at_some hmj
        refine ⟨s, l, ?_, by rw [hrj]⟩
        have hrj2 : r.index = j := by rw [hrj]
        have hfeq : (P.filter fun p => p.index == r.index) =
            P.filter (bitfield_with_index j) := by
          refine List.filter_congr ?_
          intro p hp
          rw [bitfield_with_index_eq, hrj2]
          cases hpj : (p.index == j)
          · simp
          · have hbf := hall p hp (by rw [hrj2]; exact eq_of_beq hpj)
            rw [hbf]
            simp
        rw [hfeq, hg]
    · rintro ⟨p0, hp0, hp0i, hp0b⟩
      rcases List.mem_append.1 hrM with hrf | hrm
      · exact ⟨r, (List.mem_filter.1 hrf).1, rfl, rfl⟩
      · exfalso
        obtain ⟨j, hj, hmj⟩ := List.mem_filterMap.1 hrm
        obtain ⟨s, l, hg, hrj, hex⟩ := merged_at_some hmj
        have hq : p0 ∈ P.filter (fun p => !p.ty.is_bitfield) :=
          List.mem_filter.2 ⟨hp0, by rw [hp0b]; rfl⟩
        have hrm2 : r ∈ (List.range (max_param_index P + 1)).filterMap (merged_at P) :=
          List.mem_filterMap.2 ⟨j, hj, hmj⟩
        have hsub : [p0, r].Sublist (merge_bitfields P) := by
          rw [hMeq]
          exact (List.singleton_sublist.2 hq).append (List.singleton_sublist.2 hrm2)
        have hpair := pair_sublist_sorted hsub (le_of_eq hp0i)
        have hfind := dedup_find_aux _ _ le_rfl hsorted r hr
        have hpq : (fun p => p.index == r.index) p0 = true := by
          simp only
          rw [hp0i]
          exact beq_self_eq_true _
        have hcount := find_pair_count hfind hpair hpq
        have hceq : List.count r
              ((merge_bitfields P).mergeSort fun a b => a.index ≤ b.index) =
            List.count r (P.filter fun p => !p.ty.is_bitfield) +
              List.count r ((List.range (max_param_index P + 1)).filterMap (merged_at P)) := by
          rw [hperm.count_eq r, hMeq, List.count_append]
        have hc1 : List.count r (P.filter fun p => !p.ty.is_bitfield) = 0 := by
          rw [List.count_eq_zero]
          intro hmem
          have hnb := (List.mem_filter.1 hmem).2
          rw [hrj] at hnb
          simp [Ty.is_bitfield] at hnb
        have hc2 : List.count r
            ((List.range (max_param_index P + 1)).filterMap (merged_at P)) = 1 :=
          List.count_eq_one_of_mem (mergedList_nodup P) hrm2
        rw [hc1, hc2] at hceq
        have hcon : (2 : Nat) ≤ 0 + 1 := by
          rw [← hceq]
          exact hcount
        omega

/-- Witness for C3, at the two-parameter list with bitfields `0..4` and
`4..8` at index 0: `prepare_params` yields the single spanning bitfield
`0..8`, and the theorem instantiates at that list. -/
theorem c3_witness :
    prepare_params [⟨0, .bitField 0 4, none⟩, ⟨0, .bitField 4 8, none⟩] =
        [⟨0, .bitField 0 8, none⟩] ∧
      (((prepare_params [⟨0, .bitField 0 4, none⟩, ⟨0, .bitField 4 8, none⟩]).map
            (fun p => p.index)).Nodup ∧
        (∀ i, (∃ r ∈ prepare_params [⟨0, .bitField 0 4, none⟩, ⟨0, .bitField 4 8, none⟩],
              r.index = i) ↔
            ∃ p ∈ [(⟨0, .bitField 0 4, none⟩ : Parameter), ⟨0, .bitField 4 8, none⟩],
              p.index = i) ∧
        ∀ r ∈ prepare_params [⟨0, .bitField 0 4, none⟩, ⟨0, .bitField 4 8, none⟩],
          ((∀ p ∈ [(⟨0, .bitField 0 4, none⟩ : Parameter), ⟨0, .bitField 4 8, none⟩],
              p.index = r.index → p.ty.is_bitfield = true) →
            ∃ s l, get_max_bitfield_range
                ([(⟨0, .bitField 0 4, none⟩ : Parameter), ⟨0, .bitField 4 8, none⟩].filter
                  fun p => p.index == r.index) = some (s, l) ∧ r.ty = .bitField s l) ∧
          ((∃ p ∈ [(⟨0, .bitField 0 4, none⟩ : Parameter), ⟨0, .bitField 4 8, none⟩],
              p.index = r.index ∧ p.ty.is_bitfield = false) →
            ∃ p ∈ [(⟨0, .bitField 0 4, none⟩ : Parameter), ⟨0, .bitField 4 8, none⟩],
              p.index = r.index ∧ r.ty = p.ty)) :=
  ⟨by simp +decide [prepare_params, merge_bitfields, merge_step, get_max_bitfield_range,
      bitfield_with_index, dedup_by_index, List.range_succ, List.mergeSort_singleton],
   c3_prepare_params _⟩

end Claims

end Defmt
